import Mathlib

set_option maxRecDepth 4000

/-! Verification development for the CBForest revision-tree and tagged-value-encoder
    sources (RevTree.cc, EncodingWriter.cc, Writer.hh).  The C++ code is embedded
    shallowly: byte strings are `List Nat`, machine integers are `Nat` with explicit
    truncation (`% 2 ^ w`) where the code casts, fallible paths return `Option`,
    and external collaborators (the zdelta functions) are passed as parameters. -/

/-- Sentinel for "no parent" / "no delta reference" (`Revision::kNoParent`, i.e.
    `UINT16_MAX`; `parentIndex` and `deltaRefIndex` are `uint16_t`). -/
def kNoParent : Nat := 65535

/-- One revision (`struct Revision`).  The flag bitmask of the C++ header (which is
    not part of src/) is embedded as four Booleans: `kLeaf`, `kDeleted`,
    `kHasAttachments` are the persistent flags, `kNew` is transient.  Slices are
    byte lists; the model identifies a null slice with the empty list. -/
structure Revision where
  revID : List Nat
  isLeaf : Bool
  isDeleted : Bool
  hasAttachments : Bool
  isNew : Bool
  parentIndex : Nat
  deltaRefIndex : Nat
  sequence : Nat
  body : List Nat
  oldBodyOffset : Nat
deriving DecidableEq, Repr

instance : Inhabited Revision :=
  ⟨⟨[], false, false, false, false, kNoParent, kNoParent, 0, [], 0⟩⟩

/-- The revision tree (`class RevTree`).  `_unknown` and the `_insertedData` arena
    (pure ownership bookkeeping) are not modelled. -/
structure RevTree where
  revs : List Revision
  bodyOffset : Nat
  sorted : Bool
  changed : Bool
deriving DecidableEq, Repr

/-- Structural helper for `putUVarInt`; the fuel (first argument) bounds the
    number of 7-bit groups and is always sufficient when it is at least `n`. -/
def putUVarIntAux : Nat → Nat → List Nat
  | 0, n => [n % 128]
  | fuel + 1, n =>
    if n < 128 then [n] else (n % 128 + 128) :: putUVarIntAux fuel (n / 128)

/-- Modelled from the spec: `PutUVarInt` (varint.hh is not part of src/), an
    LEB128-style unsigned varint: 7 payload bits per byte, low groups first,
    high bit set on all but the last byte. -/
def putUVarInt (n : Nat) : List Nat := putUVarIntAux n n

/-- Modelled from the spec: `GetUVarInt`; returns the decoded value and the number
    of bytes consumed, or `none` on a truncated varint. -/
def getUVarInt : List Nat → Option (Nat × Nat)
  | [] => none
  | b :: rest =>
    if b < 128 then some (b, 1)
    else
      match getUVarInt rest with
      | none => none
      | some (v, k) => some (v * 128 + (b - 128), k + 1)

/-- Big-endian 16-bit encoding (`htons`); truncates to 16 bits like the C++ cast. -/
def be16 (n : Nat) : List Nat := [n / 256 % 256, n % 256]

/-- Big-endian 32-bit encoding (`htonl`); truncates to 32 bits like the C++ cast. -/
def be32 (n : Nat) : List Nat :=
  [n / 16777216 % 256, n / 65536 % 256, n / 256 % 256, n % 256]

/-- Big-endian 16-bit read (`ntohs`) from the head of a byte list. -/
def getBE16 (l : List Nat) : Nat := l.getD 0 0 * 256 + l.getD 1 0

/-- Big-endian 32-bit read (`ntohl`) from the head of a byte list. -/
def getBE32 (l : List Nat) : Nat :=
  ((l.getD 0 0 * 256 + l.getD 1 0) * 256 + l.getD 2 0) * 256 + l.getD 3 0

/-- The persistent-flag bits of the encoded `flags` byte
    (`flags & RawRevision::kPublicPersistentFlags`).  Bit values follow the header
    (not part of src/): Deleted = 0x01, Leaf = 0x02, HasAttachments = 0x08; only
    their distinctness below 0x40 matters. -/
def persistFlags (r : Revision) : Nat :=
  (if r.isDeleted then 1 else 0) + (if r.isLeaf then 2 else 0) +
    (if r.hasAttachments then 8 else 0)

/-- `Revision::sizeToWrite`: header (10 bytes, `offsetof(RawRevision, revID)`) +
    revID + sequence varint + body bytes (if any) or oldBodyOffset varint (if any). -/
def Revision.sizeToWrite (r : Revision) : Nat :=
  10 + r.revID.length + (putUVarInt r.sequence).length +
    (if r.body.length > 0 then r.body.length
     else if r.oldBodyOffset > 0 then (putUVarInt r.oldBodyOffset).length
     else 0)

/-- `Revision::write`: one raw revision record.  Note that `revIDLen` is the
    `uint8_t` truncation of the revID size, and that the flags byte gains
    `kHasData` (0x80) when the body is non-empty, else `kHasBodyOffset` (0x40)
    when `oldBodyOffset > 0`.  The varint written in the latter case is
    `oldBodyOffset ?: bodyOffset` (GNU elvis operator). -/
def Revision.write (r : Revision) (bodyOffset : Nat) : List Nat :=
  be32 r.sizeToWrite ++ be16 r.parentIndex ++ be16 r.deltaRefIndex ++
    [persistFlags r +
      (if r.body.length > 0 then 128 else if r.oldBodyOffset > 0 then 64 else 0)] ++
    [r.revID.length % 256] ++ r.revID ++ putUVarInt r.sequence ++
    (if r.body.length > 0 then r.body
     else if r.oldBodyOffset > 0 then
       putUVarInt (if r.oldBodyOffset ≠ 0 then r.oldBodyOffset else bodyOffset)
     else [])

/-- `Revision::read`: parse one raw revision record (the record's own bytes,
    delimited by its `size` field).  Decoded flags are masked to the persistent
    bits; `oldBodyOffset` is 0 unless `kHasBodyOffset` is set. -/
def readRawRevision (rec : List Nat) : Option Revision :=
  let flags := rec.getD 8 0
  let revIDLen := rec.getD 9 0
  let data := rec.drop (10 + revIDLen)
  match getUVarInt data with
  | none => none
  | some (seq, k) =>
    let rest := data.drop k
    some { revID := (rec.drop 10).take revIDLen
           isLeaf := flags.testBit 1
           isDeleted := flags.testBit 0
           hasAttachments := flags.testBit 3
           isNew := false
           parentIndex := getBE16 (rec.drop 4)
           deltaRefIndex := getBE16 (rec.drop 6)
           sequence := seq
           body := if flags.testBit 7 then rest else []
           oldBodyOffset :=
             if flags.testBit 7 then 0
             else if flags.testBit 6 then ((getUVarInt rest).map Prod.fst).getD 0
             else 0 }

/-- Walk the raw records of an encoded tree until the 32-bit zero terminator
    (`RawRevision::count` / the decode loop).  Returns the revisions in stored
    order together with the remaining bytes, which start at the terminator.
    Malformed input (where the C++ would read out of bounds) yields `none`. -/
def parseRecords : Nat → List Nat → Option (List Revision × List Nat)
  | 0, _ => none
  | fuel + 1, bytes =>
    if bytes.length < 4 then none
    else
      let size := getBE32 bytes
      if size = 0 then some ([], bytes)
      else if size < 11 ∨ bytes.length < size then none
      else
        match readRawRevision (bytes.take size) with
        | none => none
        | some r =>
          match parseRecords fuel (bytes.drop size) with
          | none => none
          | some (rs, rest) => some (r :: rs, rest)

/-- `RevTree::decode`: rebuild the revision list from raw bytes; fails
    (`CorruptRevisionData`) when the record count exceeds `UINT16_MAX` or the
    terminator is not exactly 4 bytes before the end.  Revisions stored with
    sequence 0 inherit `seq`; the tree is created with `_sorted = true` and
    `_bodyOffset = docOffset`. -/
def RevTree.decode (raw : List Nat) (seq : Nat) (docOffset : Nat) : Option RevTree :=
  match parseRecords (raw.length + 1) raw with
  | none => none
  | some (revs, rest) =>
    if revs.length > 65535 then none
    else if rest.length = 4 then
      some { revs := revs.map fun r =>
               if r.sequence = 0 then { r with sequence := seq } else r
             bodyOffset := docOffset
             sorted := true
             changed := false }
    else none

/-- Modelled from the spec: `revid::generation` (RevID.cc is not part of src/):
    the generation is the leading base-10 digit prefix of the revID, parsed up to
    the first non-digit; a revID with no digit prefix has generation 0. -/
def generationOf (id : List Nat) : Nat :=
  go id 0
where
  go : List Nat → Nat → Nat
    | [], acc => acc
    | c :: rest, acc =>
      if 48 ≤ c ∧ c ≤ 57 then go rest (acc * 10 + (c - 48)) else acc

/-- Modelled from the spec: the suffix of a revID is everything after the first
    dash (byte 45). -/
def suffixOf : List Nat → List Nat
  | [] => []
  | c :: rest => if c = 45 then rest else suffixOf rest

/-- Byte-wise lexicographic order on byte lists (shorter prefix first). -/
def lexLess : List Nat → List Nat → Bool
  | [], [] => false
  | [], _ :: _ => true
  | _ :: _, [] => false
  | a :: as, b :: bs => if a < b then true else if b < a then false else lexLess as bs

/-- Modelled from the spec: `revid::operator<` — compare first by generation
    (numeric), then by suffix (byte-wise). -/
def revidLess (a b : List Nat) : Bool :=
  Nat.blt (generationOf a) (generationOf b) ||
    (generationOf a == generationOf b && lexLess (suffixOf a) (suffixOf b))

/-- `Revision::operator<`: higher priority comes first.  Leaf revisions first;
    among equals, non-deleted first; otherwise the higher revID first. -/
def revBefore (a b : Revision) : Bool :=
  if a.isLeaf ≠ b.isLeaf then a.isLeaf
  else if a.isDeleted ≠ b.isDeleted then b.isDeleted
  else revidLess b.revID a.revID

/-- The non-strict order used to model `std::sort` with `Revision::operator<`:
    `a` may be placed no later than `b` iff `b` is not strictly before `a`. -/
def revLE (a b : Revision) : Prop := revBefore b a = false

instance : DecidableRel revLE := fun a b => by
  unfold revLE; infer_instance

/-- Tag each revision with its own index in the `parentIndex` field — the first
    loop of `RevTree::sort` (`oldParents[i] = parentIndex; parentIndex = i`). -/
def tagRevs : Nat → List Revision → List Revision
  | _, [] => []
  | i, r :: rs => { r with parentIndex := i } :: tagRevs (i + 1) rs

/-- `RevTree::sort`: no-op when `_sorted`; otherwise tag, sort by
    `Revision::operator<`, recover the old→new index map from the post-sort tags
    (`oldToNew`), and rewrite `parentIndex` / `deltaRefIndex` through it. -/
def RevTree.sort (t : RevTree) : RevTree :=
  if t.sorted then t
  else
    let oldParents := t.revs.map (·.parentIndex)
    let sortedRevs := List.insertionSort revLE (tagRevs 0 t.revs)
    let oldToNew := fun p => sortedRevs.findIdx fun r => r.parentIndex == p
    let revs' := sortedRevs.map fun r =>
      { r with
        parentIndex :=
          (let p := oldParents.getD r.parentIndex kNoParent
           if p = kNoParent then kNoParent else oldToNew p)
        deltaRefIndex :=
          if r.deltaRefIndex = kNoParent then kNoParent else oldToNew r.deltaRefIndex }
    { t with revs := revs', sorted := true }

/-- Concatenated raw records of a revision list followed by the 32-bit zero
    terminator (the write loop of `RevTree::encode`). -/
def writeAll (revs : List Revision) (bodyOffset : Nat) : List Nat :=
  (revs.map (Revision.write · bodyOffset)).flatten ++ [0, 0, 0, 0]

/-- `RevTree::encode`: sort, then write every revision followed by the zero
    terminator. -/
def RevTree.encode (t : RevTree) : List Nat :=
  writeAll (t.sort).revs t.bodyOffset

/-- One step up the parent chain; `kNoParent` is absorbing, and an out-of-range
    index reads the default revision (whose parent is `kNoParent`). -/
def pstep (revs : List Revision) (i : Nat) : Nat :=
  if i = kNoParent then kNoParent else (revs.getD i default).parentIndex

/-- `k` steps up the parent chain. -/
def piter (revs : List Revision) : Nat → Nat → Nat
  | 0, i => i
  | k + 1, i => piter revs k (pstep revs i)

/-- The leaf-marked indices of the first `m` revisions. -/
def leavesUpTo (revs : List Revision) (m : Nat) : List Nat :=
  (List.range m).filter fun l => (revs.getD l default).isLeaf

/-- Candidate depths of revision `i`: every distance `k` at which some leaf of
    `revs` has `i` on its parent chain (distances are below `revs.length` for a
    well-formed tree). -/
def depthCands (revs : List Revision) (i : Nat) : List Nat :=
  (List.range revs.length).filter fun k =>
    (leavesUpTo revs revs.length).any fun l => piter revs k l == i

/-- The longest-path depth of revision `i` from a leaf (leaves at depth 0):
    the maximum distance at which any leaf reaches `i` along its parent chain. -/
def depthSpec (revs : List Revision) (i : Nat) : Nat :=
  (depthCands revs i).foldr max 0

/-- The inner loop of `RevTree::computeDepths`: from leaf-relative distance `d`
    at `index`, walk the parent chain, recording `d` while it improves the stored
    depth (`UINT16_MAX` = unset) and stopping at the first non-improvement. -/
def walkDepths (revs : List Revision) (useMax : Bool) :
    Nat → Nat → Nat → List Nat → List Nat
  | 0, _, _, depths => depths
  | fuel + 1, index, d, depths =>
    if index = kNoParent then depths
    else
      let oldDepth := depths.getD index 0
      if oldDepth = 65535 ∨ (if useMax then oldDepth < d else d < oldDepth) then
        walkDepths revs useMax fuel ((revs.getD index default).parentIndex) (d + 1)
          (depths.set index d)
      else depths

/-- The outer loop of `RevTree::computeDepths`: run the walk from every leaf, in
    index order; in a sorted tree, stop at the first non-leaf.  The fuel (first
    numeric argument) bounds the remaining iterations and is sufficient whenever
    it is at least `revs.length - i`. -/
def computeDepthsFrom (revs : List Revision) (sorted useMax : Bool) :
    Nat → Nat → List Nat → List Nat
  | 0, _, depths => depths
  | fuel + 1, i, depths =>
    if i < revs.length then
      if (revs.getD i default).isLeaf then
        computeDepthsFrom revs sorted useMax fuel (i + 1)
          (walkDepths revs useMax (revs.length + 1) i 0 depths)
      else if sorted then depths
      else computeDepthsFrom revs sorted useMax fuel (i + 1) depths
    else depths

/-- `RevTree::computeDepths`: depths start at `UINT16_MAX` (unset). -/
def RevTree.computeDepths (t : RevTree) (useMax : Bool) : List Nat :=
  computeDepthsFrom t.revs t.sorted useMax t.revs.length 0
    (List.replicate t.revs.length 65535)

/-- Candidate depths of revision `idx` counting only leaves among the first `m`
    revisions (the prefix the outer `computeDepths` loop has processed). -/
def depthCandsUpTo (revs : List Revision) (m idx : Nat) : List Nat :=
  (List.range revs.length).filter fun k =>
    (leavesUpTo revs m).any fun l => piter revs k l == idx

/-- The depth table value from the first `m` leaves: `65535` (unset) when no
    processed leaf reaches `idx`, otherwise the longest distance. -/
def depthValUpTo (revs : List Revision) (m idx : Nat) : Nat :=
  if (depthCandsUpTo revs m idx).isEmpty then 65535
  else (depthCandsUpTo revs m idx).foldr max 0

/-- Candidate depths mid-walk: leaves before `m` contribute every distance, the
    leaf `l` being walked contributes only distances below `d`. -/
def depthCandsMid (revs : List Revision) (m l d idx : Nat) : List Nat :=
  (List.range revs.length).filter fun k =>
    ((leavesUpTo revs m).any fun l2 => piter revs k l2 == idx) ||
      (decide (k < d) && (piter revs k l == idx))

/-- The mid-walk depth table value (`65535` = unset). -/
def depthValMid (revs : List Revision) (m l d idx : Nat) : Nat :=
  if (depthCandsMid revs m l d idx).isEmpty then 65535
  else (depthCandsMid revs m l d idx).foldr max 0

/-- Number of surviving (non-tombstoned) revisions among the first `i`
    (the running `j` counter of `RevTree::compact`'s first pass). -/
def survBefore (revs : List Revision) (i : Nat) : Nat :=
  ((revs.take i).filter fun r => r.revID.length > 0).length

/-- The old→new index map of `RevTree::compact`: tombstones map to `kNoParent`. -/
def compactMap (revs : List Revision) (i : Nat) : Nat :=
  if (revs.getD i default).revID.length > 0 then survBefore revs i else kNoParent

/-- `RevTree::compact`: drop tombstoned revisions (empty revID) and rewrite the
    index fields of the survivors through the old→new map. -/
def RevTree.compact (t : RevTree) : RevTree :=
  let remap := fun p => if p = kNoParent then kNoParent else compactMap t.revs p
  { t with
    revs := (t.revs.filter fun r => r.revID.length > 0).map fun r =>
      { r with parentIndex := remap r.parentIndex
               deltaRefIndex := remap r.deltaRefIndex }
    changed := true }

/-- Tombstone (empty the revID of) every revision whose computed depth exceeds
    `maxDepth` — the marking loop of `RevTree::prune`. -/
def markDeep (depths : List Nat) (maxDepth : Nat) : Nat → List Revision → List Revision
  | _, [] => []
  | i, r :: rs =>
    (if maxDepth < depths.getD i 0 then { r with revID := [] } else r) ::
      markDeep depths maxDepth (i + 1) rs

/-- `RevTree::prune`: no-op when `maxDepth == 0` or the tree has at most
    `maxDepth` revisions; otherwise tombstone every revision whose longest-path
    depth exceeds `maxDepth` and compact.  Returns the number removed. -/
def RevTree.prune (t : RevTree) (maxDepth : Nat) : Nat × RevTree :=
  if maxDepth = 0 ∨ t.revs.length ≤ maxDepth then (0, t)
  else
    let depths := t.computeDepths true
    let numPruned :=
      ((List.range t.revs.length).filter fun i => maxDepth < depths.getD i 0).length
    let t' := { t with revs := markDeep depths maxDepth 0 t.revs }
    if 0 < numPruned then (numPruned, t'.compact) else (numPruned, t')

/-- `RevTree::get(revid)` as an index search. -/
def RevTree.findRev (t : RevTree) (id : List Nat) : Option Nat :=
  t.revs.findIdx? fun r => r.revID == id

/-- The fresh revision built by `RevTree::_insert` (flags `kLeaf | kNew` plus the
    requested Deleted / HasAttachments; sequence and oldBodyOffset unknown). -/
def mkNewRevision (id body : List Nat) (deleted hasAtt : Bool)
    (parent : Option Nat) : Revision :=
  { revID := id, body := body, sequence := 0, oldBodyOffset := 0,
    isLeaf := true, isNew := true, isDeleted := deleted, hasAttachments := hasAtt,
    parentIndex := match parent with | some p => p | none => kNoParent,
    deltaRefIndex := kNoParent }

/-- `RevTree::_insert`: clear the parent's Leaf flag, append the new revision,
    mark the tree changed, and clear `_sorted` once it holds more than one
    revision. -/
def RevTree.insertRaw (t : RevTree) (id body : List Nat) (parent : Option Nat)
    (deleted hasAtt : Bool) : RevTree :=
  let revs1 := match parent with
    | some p => t.revs.set p { t.revs.getD p default with isLeaf := false }
    | none => t.revs
  let revs2 := revs1 ++ [mkNewRevision id body deleted hasAtt parent]
  { t with revs := revs2, changed := true,
           sorted := if 1 < revs2.length then false else t.sorted }

/-- `RevTree::insert` taking a parent revision (by index; `none` = null pointer):
    400 for generation 0, 200 when the revID already exists, 409 on disallowed
    conflict, 400 when the generation is not parent's + 1, else insert and return
    200 for a deletion / 201 otherwise. -/
def RevTree.insertWithParent (t : RevTree) (id body : List Nat)
    (deleted hasAtt : Bool) (parent : Option Nat) (allowConflict : Bool) :
    Nat × RevTree :=
  let newGen := generationOf id
  if newGen = 0 then (400, t)
  else if (t.findRev id).isSome then (200, t)
  else
    let conflict : Bool := match parent with
      | some p => !allowConflict && !(t.revs.getD p default).isLeaf
      | none => !allowConflict && decide (0 < t.revs.length)
    if conflict then (409, t)
    else
      let parentGen := match parent with
        | some p => generationOf (t.revs.getD p default).revID
        | none => 0
      if newGen ≠ parentGen + 1 then (400, t)
      else ((if deleted then 200 else 201), t.insertRaw id body parent deleted hasAtt)

/-- `RevTree::insert` taking a parent revID (`none` = null slice): 404 when the
    parent is supplied but not found, else delegate. -/
def RevTree.insert (t : RevTree) (id body : List Nat) (deleted hasAtt : Bool)
    (parentRevID : Option (List Nat)) (allowConflict : Bool) : Nat × RevTree :=
  match parentRevID with
  | some pid =>
    match t.findRev pid with
    | none => (404, t)
    | some p => t.insertWithParent id body deleted hasAtt (some p) allowConflict
  | none => t.insertWithParent id body deleted hasAtt none allowConflict

/-- The preflight/ancestor-search loop of `RevTree::insertHistory`: starting at
    entry `j` with the previous entry's generation `lastGen`, fail (`none`, the
    −1 return) when a generation does not decrease by exactly 1, and stop at the
    first entry already in the tree, returning its position and index. -/
def historyPreflight (t : RevTree) (history : List (List Nat)) :
    Nat → Nat → Nat → Option (Nat × Option Nat)
  | 0, _, _ => some (history.length, none)
  | fuel + 1, j, lastGen =>
    if j < history.length then
      let gen := generationOf (history.getD j [])
      if 0 < lastGen ∧ gen ≠ lastGen - 1 then none
      else
        match t.findRev (history.getD j []) with
        | some p => some (j, some p)
        | none => historyPreflight t history fuel (j + 1) gen
    else some (history.length, none)

/-- The insertion loop of `RevTree::insertHistory` (`while (--i > 0)` then the
    final `_insert`): insert `history[i-1] … history[1]` oldest-first with empty
    bodies, chaining parents, then `history[0]` with the given body and flags. -/
def chainInsertNew (history : List (List Nat)) (data : List Nat)
    (deleted hasAtt : Bool) : Nat → Option Nat → RevTree → RevTree
  | 0, _, t => t
  | 1, parent, t => t.insertRaw (history.getD 0 []) data parent deleted hasAtt
  | k + 2, parent, t =>
    chainInsertNew history data deleted hasAtt (k + 1) (some t.revs.length)
      (t.insertRaw (history.getD (k + 1) []) [] parent false false)

/-- `RevTree::insertHistory`: preflight and find the common ancestor, then insert
    the strictly newer entries; returns the common-ancestor position in
    `history`, or −1 on a generation gap. -/
def RevTree.insertHistory (t : RevTree) (history : List (List Nat))
    (data : List Nat) (deleted hasAtt : Bool) : Int × RevTree :=
  match historyPreflight t history history.length 0 0 with
  | none => (-1, t)
  | some (i, parent) =>
    if 0 < i then (Int.ofNat i, chainInsertNew history data deleted hasAtt i parent t)
    else (Int.ofNat i, t)

/-- `Revision::isCompressed`: the body is a delta iff `deltaRefIndex` is set. -/
def Revision.isCompressed (r : Revision) : Bool := r.deltaRefIndex ≠ kNoParent

/-- `RevTree::readBodyOfRevision` (with the inline-body shortcut folded in):
    a null body fails; an uncompressed body is returned as-is; a compressed body
    is expanded by recursively reading the delta reference and applying the
    delta.  `applyDelta` is the external `ApplyDelta` collaborator. -/
def readBodyFuel (applyDelta : List Nat → List Nat → List Nat)
    (revs : List Revision) : Nat → Nat → Option (List Nat)
  | 0, _ => none
  | fuel + 1, i =>
    let r := revs.getD i default
    if r.body.length = 0 then none
    else if r.deltaRefIndex = kNoParent then some r.body
    else
      match readBodyFuel applyDelta revs fuel r.deltaRefIndex with
      | none => none
      | some ref => some (applyDelta ref r.body)

/-- `Revision::readBody` via the owning tree (fuel: acyclic chains are shorter
    than the revision count). -/
def RevTree.readBodyOfRevision (applyDelta : List Nat → List Nat → List Nat)
    (t : RevTree) (i : Nat) : Option (List Nat) :=
  readBodyFuel applyDelta t.revs (t.revs.length + 1) i

/-- `RevTree::replaceBody`: storing a non-null body (`some`) always succeeds;
    clearing (`none`) is a no-op on a null body and otherwise asserts
    `_bodyOffset > 0` (`none` result = assertion failure) before recording
    `oldBodyOffset = _bodyOffset` and emptying the body. -/
def RevTree.replaceBody (t : RevTree) (i : Nat) (newBody : Option (List Nat)) :
    Option RevTree :=
  match newBody with
  | some b =>
    some { t with revs := t.revs.set i { t.revs.getD i default with body := b },
                  changed := true }
  | none =>
    let r := t.revs.getD i default
    if r.body.length = 0 then some t
    else if t.bodyOffset = 0 then none
    else
      some { t with
             revs := t.revs.set i { r with oldBodyOffset := t.bodyOffset, body := [] },
             changed := true }

/-- `RevTree::decompress`: expand a compressed revision's body and clear its
    delta reference; fails (false) when the body cannot be read. -/
def RevTree.decompress (applyDelta : List Nat → List Nat → List Nat)
    (t : RevTree) (i : Nat) : Bool × RevTree :=
  if ¬(t.revs.getD i default).isCompressed then (true, t)
  else
    match t.readBodyOfRevision applyDelta i with
    | none => (false, t)
    | some b =>
      match t.replaceBody i (some b) with
      | some t' =>
        (true, { t' with
                 revs := t'.revs.set i
                   { t'.revs.getD i default with deltaRefIndex := kNoParent } })
      | none => (false, t)

/-- The dependent scan of `RevTree::removeBody`: for every revision whose delta
    reference is `idx`, refuse (false) unless expansion is allowed and succeeds;
    afterwards clear the body via `replaceBody` (which may assert → `none`). -/
def removeBodyScan (applyDelta : List Nat → List Nat → List Nat) (idx : Nat)
    (allow : Bool) : Nat → Nat → RevTree → Option (Bool × RevTree)
  | 0, _, t => (t.replaceBody idx none).map fun u => (true, u)
  | fuel + 1, j, t =>
    if j < t.revs.length then
      if (t.revs.getD j default).deltaRefIndex = idx then
        if ¬allow then some (false, t)
        else
          let r := t.decompress applyDelta j
          if r.1 = false then some (false, r.2)
          else removeBodyScan applyDelta idx allow fuel (j + 1) r.2
      else removeBodyScan applyDelta idx allow fuel (j + 1) t
    else (t.replaceBody idx none).map fun u => (true, u)

/-- `RevTree::removeBody`: a null body is already removed; otherwise scan for
    delta-dependents and then clear. -/
def RevTree.removeBody (applyDelta : List Nat → List Nat → List Nat)
    (t : RevTree) (i : Nat) (allow : Bool) : Option (Bool × RevTree) :=
  if (t.revs.getD i default).body.length = 0 then some (true, t)
  else removeBodyScan applyDelta i allow t.revs.length 0 t

/-- The cycle-check loop of `RevTree::compress`: walk `reference`'s delta chain
    while the current revision is compressed, refusing (true = "target found")
    when a compressed link is the target. -/
def deltaChainHasTarget (revs : List Revision) : Nat → Nat → Nat → Bool
  | 0, _, _ => false
  | fuel + 1, ri, ti =>
    if ¬(revs.getD ri default).isCompressed then false
    else if ri = ti then true
    else deltaChainHasTarget revs fuel (revs.getD ri default).deltaRefIndex ti

/-- `Revision::generateZDeltaFrom`: an already-compressed target whose reference
    matches returns its body; otherwise read both bodies and call the external
    `CreateDelta` (`createDelta reference target`; `none` = null slice). -/
def generateZDeltaFrom (createDelta : List Nat → List Nat → Option (List Nat))
    (applyDelta : List Nat → List Nat → List Nat) (t : RevTree) (ti ri : Nat) :
    Option (List Nat) :=
  if (t.revs.getD ti default).isCompressed ∧ (t.revs.getD ti default).deltaRefIndex = ri
  then some (t.revs.getD ti default).body
  else
    match t.readBodyOfRevision applyDelta ti, t.readBodyOfRevision applyDelta ri with
    | some td, some rd => createDelta rd td
    | _, _ => none

/-- `RevTree::compress`: no-op (true) on an already-compressed target; refuse
    (false) when the cycle check trips; otherwise generate the delta, replace the
    target's body with it and point its delta reference at `ri`. -/
def RevTree.compress (createDelta : List Nat → List Nat → Option (List Nat))
    (applyDelta : List Nat → List Nat → List Nat) (t : RevTree) (ti ri : Nat) :
    Bool × RevTree :=
  if (t.revs.getD ti default).isCompressed then (true, t)
  else if deltaChainHasTarget t.revs (t.revs.length + 1) ri ti then (false, t)
  else
    match generateZDeltaFrom createDelta applyDelta t ti ri with
    | none => (false, t)
    | some delta =>
      match t.replaceBody ti (some delta) with
      | some t' =>
        (true, { t' with
                 revs := t'.revs.set ti
                   { t'.revs.getD ti default with deltaRefIndex := ri } })
      | none => (false, t)

/-- Modelled from the spec: the type codes of the tagged value format
    (Encoding.hh is not part of src/).  Only their distinctness matters here;
    the values are fixed for the embedding. -/
def kStringCode : Nat := 10

/-- Modelled from the spec: code byte of a string that is later referenced. -/
def kSharedStringCode : Nat := 11

/-- Modelled from the spec: code byte of a back-reference to a shared string. -/
def kSharedStringRefCode : Nat := 12

/-- Modelled from the spec: code byte of a reference into the extern table. -/
def kExternStringRefCode : Nat := 13

/-- `kMinSharedStringLength` (EncodingWriter.cc line 17). -/
def kMinSharedStringLength : Nat := 4

/-- `kMaxSharedStringLength` (EncodingWriter.cc line 17). -/
def kMaxSharedStringLength : Nat := 100

/-- The `dataWriter` state relevant to string writing: the output buffer
    (`Writer`), the shared-strings map (string → code-byte offset of the first
    occurrence; `std::map::operator[]` yields 0 for an absent key), the
    caller-owned extern table, its cap, and the sharing flag.  The container
    stack is irrelevant to string writing and is not modelled. -/
structure DWState where
  out : List Nat
  shared : List (List Nat × Nat)
  externs : Option (List (List Nat))
  maxExterns : Nat
  enableShared : Bool
deriving DecidableEq, Repr

/-- `_sharedStrings[str]`: latest binding wins, absent = 0 (the `std::map`
    default). -/
def lookupShared (m : List (List Nat × Nat)) (s : List Nat) : Nat :=
  match m.find? fun e => e.1 == s with
  | some e => e.2
  | none => 0

/-- `dataWriter::writeExternString`: the extern-reference code and a uvarint id. -/
def writeExternString (w : DWState) (refId : Nat) : DWState :=
  { w with out := w.out ++ [kExternStringRefCode] ++ putUVarInt refId }

/-- The shared-string / plain tail of `dataWriter::writeString(std::string)`:
    for a shareable string, a recorded nonzero first-occurrence offset rewrites
    that code byte to `kSharedStringCode` (`Writer::rewrite`) and emits a
    back-reference whose uvarint is the offset distance; otherwise the offset is
    recorded and the string is written plain (`kStringCode`, uvarint length,
    bytes).  `none` models the "output too large" throw. -/
def writeSharedOrPlain (w : DWState) (s : List Nat) : Option DWState :=
  if w.enableShared ∧ kMinSharedStringLength ≤ s.length ∧ s.length ≤ kMaxSharedStringLength
  then
    let cur := w.out.length
    if 4294967295 < cur then none
    else
      let soff := lookupShared w.shared s
      if 0 < soff then
        some { w with out := (w.out.set soff kSharedStringCode) ++
                 [kSharedStringRefCode] ++ putUVarInt (cur - soff) }
      else
        some { w with shared := (s, cur) :: w.shared,
                      out := w.out ++ [kStringCode] ++ putUVarInt s.length ++ s }
  else some { w with out := w.out ++ [kStringCode] ++ putUVarInt s.length ++ s }

/-- `dataWriter::writeString(std::string, bool)`: extern-table hit → extern ref;
    extern-table room and permission → intern and emit the new ref; otherwise the
    shared/plain path. -/
def writeString (w : DWState) (s : List Nat) (canAddExtern : Bool) : Option DWState :=
  match w.externs with
  | some tbl =>
    match tbl.findIdx? (fun e => e == s) with
    | some i => some (writeExternString w (i + 1))
    | none =>
      if tbl.length < w.maxExterns ∧ canAddExtern then
        some (writeExternString { w with externs := some (tbl ++ [s]) } (tbl.length + 1))
      else writeSharedOrPlain w s
  | none => writeSharedOrPlain w s

/-- The per-revision fields compared by the round-trip claim: revID, the three
    persistent flags, the index fields, sequence, and body. -/
def persistedFields (r : Revision) :
    List Nat × Bool × Bool × Bool × Nat × Nat × Nat × List Nat :=
  (r.revID, r.isLeaf, r.isDeleted, r.hasAttachments, r.parentIndex,
    r.deltaRefIndex, r.sequence, r.body)

/-- Same fields with the stored sequence 0 replaced by the document sequence. -/
def persistedFieldsSeq (seq : Nat) (r : Revision) :
    List Nat × Bool × Bool × Bool × Nat × Nat × Nat × List Nat :=
  (r.revID, r.isLeaf, r.isDeleted, r.hasAttachments, r.parentIndex,
    r.deltaRefIndex, if r.sequence = 0 then seq else r.sequence, r.body)

/-- The revision produced by parsing a record that `Revision::write` produced
    for `r`: flags masked to the persistent bits (so `kNew` is dropped), the
    16-bit index fields as stored, and `oldBodyOffset` kept only when the body
    was absent. -/
def decodedRev (r : Revision) : Revision :=
  { revID := r.revID, isLeaf := r.isLeaf, isDeleted := r.isDeleted,
    hasAttachments := r.hasAttachments, isNew := false,
    parentIndex := r.parentIndex % 65536, deltaRefIndex := r.deltaRefIndex % 65536,
    sequence := r.sequence, body := r.body,
    oldBodyOffset := if 0 < r.body.length then 0 else r.oldBodyOffset }

/-- Every per-revision field except the two tree-index fields (used to compare
    revision identity across index-renumbering operations). -/
def coreFields (r : Revision) :
    List Nat × Bool × Bool × Bool × Bool × Nat × List Nat × Nat :=
  (r.revID, r.isLeaf, r.isDeleted, r.hasAttachments, r.isNew, r.sequence,
    r.body, r.oldBodyOffset)

/-- The revID of a leaf revision, `none` for a non-leaf (for comparing leaf sets). -/
def leafID (r : Revision) : Option (List Nat) :=
  if r.isLeaf then some r.revID else none

/-- Leaves occupy a prefix of the revision array (the order guaranteed by
    `sort()`, assumed by the `_sorted` shortcut of `computeDepths`). -/
def leavesFirst (revs : List Revision) : Prop :=
  ∀ j, j < revs.length → ∀ i, i < j →
    (revs.getD j default).isLeaf = true → (revs.getD i default).isLeaf = true

instance (revs : List Revision) : Decidable (leavesFirst revs) := by
  unfold leavesFirst; infer_instance

/-- Whether a revID is present in the tree. -/
def presentIn (t : RevTree) (id : List Nat) : Bool := (t.findRev id).isSome

/-- Position in `history` of the first entry already present in the tree
    (`history.length` when none is). -/
def firstPresent (t : RevTree) (history : List (List Nat)) : Nat :=
  history.findIdx (presentIn t)

/-- The generation-gap test actually performed by `insertHistory`'s preflight:
    some non-initial entry, at or before the first present entry, whose
    predecessor has positive generation, does not decrease the generation by
    exactly 1. -/
def historyGenGap (t : RevTree) (history : List (List Nat)) : Bool :=
  (List.range history.length).any fun j =>
    decide (1 ≤ j) && decide (j ≤ firstPresent t history) &&
      decide (0 < generationOf (history.getD (j - 1) [])) &&
      decide (generationOf (history.getD j []) ≠
        generationOf (history.getD (j - 1) []) - 1)

/-- The status table of the amended insertion claim, written from its words:
    404 when a parent revID is supplied but absent; then 400 for generation 0;
    then 200 for an already-present revID; then 409 for a disallowed conflict;
    then 400 when the generation is not the parent's plus 1; else 200 for a
    deletion and 201 otherwise. -/
def insertStatusSpec (t : RevTree) (id : List Nat) (deleted : Bool)
    (parentRevID : Option (List Nat)) (allowConflict : Bool) : Nat :=
  let parentFound := match parentRevID with
    | some pid => t.findRev pid
    | none => none
  if parentRevID.isSome && parentFound.isNone then 404
  else if generationOf id == 0 then 400
  else if (t.findRev id).isSome then 200
  else if !allowConflict &&
      (match parentFound with
       | some p => !(t.revs.getD p default).isLeaf
       | none => decide (0 < t.revs.length)) then 409
  else if generationOf id !=
      (match parentFound with
       | some p => generationOf (t.revs.getD p default).revID
       | none => 0) + 1 then 400
  else if deleted then 200 else 201

/-- A revision template used by the concrete test trees below. -/
def mkRev (id : List Nat) (leaf : Bool) (p : Nat) (body : List Nat) : Revision :=
  { revID := id, isLeaf := leaf, isDeleted := false, hasAttachments := false,
    isNew := false, parentIndex := p, deltaRefIndex := kNoParent, sequence := 1,
    body := body, oldBodyOffset := 0 }

/-- Concrete input for the round-trip counterexample: a single revision whose
    revID is 256 bytes long, so that `revIDLen = (uint8_t)256 = 0`. -/
def bigIDTree : RevTree :=
  { revs := [mkRev (List.replicate 256 97) true kNoParent []],
    bodyOffset := 0, sorted := false, changed := false }

/-- Concrete input for the compress cycle: revision 0 is compressed with its
    delta reference pointing at revision 1 (the future target), which is
    uncompressed with an inline body. -/
def cycleTree : RevTree :=
  { revs := [{ mkRev [50, 45, 98] true 1 [100] with deltaRefIndex := 1 },
             mkRev [49, 45, 97] false kNoParent [55]],
    bodyOffset := 3, sorted := true, changed := false }

/-- A trivial stand-in for the external `CreateDelta` collaborator. -/
def cdTest : List Nat → List Nat → Option (List Nat) := fun _ t => some t

/-- A trivial stand-in for the external `ApplyDelta` collaborator. -/
def adTest : List Nat → List Nat → List Nat := fun _ d => d

/-- Concrete two-revision chain (leaf at index 0, its parent at index 1) used by
    the prune counterexample. -/
def chain2Tree : RevTree :=
  { revs := [mkRev [50, 45, 98] true 1 [], mkRev [49, 45, 97] false kNoParent []],
    bodyOffset := 0, sorted := true, changed := false }

/-- Concrete tree containing only revision 1-a (a leaf). -/
def oneRevTree : RevTree :=
  { revs := [mkRev [49, 45, 97] true kNoParent []],
    bodyOffset := 0, sorted := true, changed := false }

/-- Concrete tree with a single non-empty-bodied revision and no saved body
    offset (`_bodyOffset = 0`). -/
def noOffsetTree : RevTree :=
  { revs := [mkRev [49, 45, 97] true kNoParent [55]],
    bodyOffset := 0, sorted := true, changed := false }

/-- A fresh string writer with shared strings enabled and no extern table. -/
def sharedWriter : DWState :=
  { out := [], shared := [], externs := none, maxExterns := 0, enableShared := true }

/-- A four-byte (shareable) test string. -/
def strABCD : List Nat := [97, 98, 99, 100]

/-- Concrete well-formed two-revision tree used by witnesses: leaf 2-b (body,
    unsaved sequence) atop root 1-a. -/
def witTree : RevTree :=
  { revs :=
      [{ revID := [49, 45, 97], isLeaf := false, isDeleted := false,
         hasAttachments := false, isNew := false, parentIndex := kNoParent,
         deltaRefIndex := kNoParent, sequence := 3, body := [104, 105],
         oldBodyOffset := 0 },
       { revID := [50, 45, 98], isLeaf := true, isDeleted := false,
         hasAttachments := true, isNew := true, parentIndex := 0,
         deltaRefIndex := kNoParent, sequence := 0, body := [],
         oldBodyOffset := 7 }],
    bodyOffset := 9, sorted := false, changed := true }

/-- Concrete four-revision tree (root 1-a; child 2-b; grandchild leaf 3-c;
    second leaf child 2-d) used by the prune witness. -/
def branchTree : RevTree :=
  { revs := [mkRev [49, 45, 97] false kNoParent [], mkRev [50, 45, 98] false 0 [],
             mkRev [51, 45, 99] true 1 [], mkRev [50, 45, 100] true 0 []],
    bodyOffset := 0, sorted := false, changed := false }

theorem putUVarIntAux_fuel (f1 : Nat) : ∀ n f2, n ≤ f1 → n ≤ f2 →
    putUVarIntAux f1 n = putUVarIntAux f2 n := by
  induction f1 with
  | zero =>
    intro n f2 h1 _
    have hn : n = 0 := by omega
    subst hn
    cases f2 <;> simp [putUVarIntAux]
  | succ f ih =>
    intro n f2 h1 h2
    cases f2 with
    | zero =>
      have hn : n = 0 := by omega
      subst hn
      simp [putUVarIntAux]
    | succ g =>
      simp only [putUVarIntAux]
      by_cases h : n < 128
      · simp [h]
      · have hdiv : n / 128 < n := Nat.div_lt_self (by omega) (by omega)
        simp only [if_neg h, List.cons.injEq, true_and]
        exact ih (n / 128) g (by omega) (by omega)

theorem putUVarInt_eq (n : Nat) :
    putUVarInt n = if n < 128 then [n] else (n % 128 + 128) :: putUVarInt (n / 128) := by
  cases n with
  | zero => simp [putUVarInt, putUVarIntAux]
  | succ f =>
    simp only [putUVarInt, putUVarIntAux]
    by_cases h : f + 1 < 128
    · simp [h]
    · have hdiv : (f + 1) / 128 < f + 1 := Nat.div_lt_self (by omega) (by omega)
      simp only [if_neg h, List.cons.injEq, true_and]
      exact putUVarIntAux_fuel f ((f + 1) / 128) ((f + 1) / 128) (by omega) (Nat.le_refl _)

theorem putUVarInt_ne_nil (n : Nat) : putUVarInt n ≠ [] := by
  rw [putUVarInt_eq]; split <;> simp

theorem putUVarInt_length_pos (n : Nat) : 0 < (putUVarInt n).length := by
  cases h : putUVarInt n with
  | nil => exact absurd h (putUVarInt_ne_nil n)
  | cons a l => simp

theorem getUVarInt_put (n : Nat) (rest : List Nat) :
    getUVarInt (putUVarInt n ++ rest) = some (n, (putUVarInt n).length) := by
  induction n using Nat.strong_induction_on with
  | _ n ih =>
    rw [putUVarInt_eq]
    by_cases h : n < 128
    · simp [h, getUVarInt]
    · have hd : n / 128 < n := Nat.div_lt_self (by omega) (by omega)
      have hge : ¬(n % 128 + 128 < 128) := by omega
      simp only [if_neg h, List.cons_append, getUVarInt, if_neg hge, ih _ hd,
        List.length_cons]
      have : n / 128 * 128 + (n % 128 + 128 - 128) = n := by omega
      rw [this]

theorem persistFlags_lt (r : Revision) : persistFlags r < 12 := by
  unfold persistFlags
  cases r.isDeleted <;> cases r.isLeaf <;> cases r.hasAttachments <;> simp

theorem flags_testBits (p e : Nat) (hp : p < 16) (he : e = 0 ∨ e = 64 ∨ e = 128) :
    ((p + e).testBit 7 = decide (e = 128)) ∧ ((p + e).testBit 6 = decide (e = 64)) ∧
      ((p + e).testBit 0 = p.testBit 0) ∧ ((p + e).testBit 1 = p.testBit 1) ∧
      ((p + e).testBit 3 = p.testBit 3) := by
  simp only [Nat.testBit_to_div_mod]
  rcases he with rfl | rfl | rfl <;>
    refine ⟨?_, ?_, ?_, ?_, ?_⟩ <;> simp <;> omega

theorem write_getD8 (r : Revision) (off : Nat) :
    (r.write off).getD 8 0 =
      persistFlags r +
        (if r.body.length > 0 then 128 else if r.oldBodyOffset > 0 then 64 else 0) := by
  simp [Revision.write, be32, be16]

theorem write_getD9 (r : Revision) (off : Nat) :
    (r.write off).getD 9 0 = r.revID.length % 256 := by
  simp [Revision.write, be32, be16]

theorem write_drop_header (r : Revision) (off : Nat) :
    (r.write off).drop 10 =
      r.revID ++ putUVarInt r.sequence ++
        (if r.body.length > 0 then r.body
         else if r.oldBodyOffset > 0 then
           putUVarInt (if r.oldBodyOffset ≠ 0 then r.oldBodyOffset else off)
         else []) := by
  simp [Revision.write, be32, be16]

theorem write_tail (r : Revision) (off : Nat) :
    (r.write off).drop (10 + r.revID.length + (putUVarInt r.sequence).length) =
      (if r.body.length > 0 then r.body
       else if r.oldBodyOffset > 0 then
         putUVarInt (if r.oldBodyOffset ≠ 0 then r.oldBodyOffset else off)
       else []) := by
  have h10 : 10 + r.revID.length + (putUVarInt r.sequence).length =
      10 + (r.revID.length + (putUVarInt r.sequence).length) := by omega
  rw [h10, ← List.drop_drop, write_drop_header, ← List.drop_drop, List.append_assoc,
    List.drop_left, List.drop_left]

/-- C3 counterexample: a revision with an empty body and `oldBodyOffset = 0`,
    written into a tree whose `bodyOffset` is 5.  The claim asserts the record's
    HasBodyOffset flag (bit 6) is set and an offset varint is written; the code
    sets neither (the flag condition tests only `oldBodyOffset`), so the flag bit
    is clear and nothing follows the sequence varint. -/
theorem c3_counterexample :
    (((mkRev [49, 45, 97] true kNoParent []).write 5).getD 8 0).testBit 6 = false ∧
      ((mkRev [49, 45, 97] true kNoParent []).write 5).drop 14 = [] := by decide

/-- C3 (amended): in a record written by `Revision::write`, a non-empty body sets
    HasData (bit 7) and is copied verbatim after the sequence varint; otherwise
    HasBodyOffset (bit 6) is set iff the revision's own `oldBodyOffset` is
    positive, in which case the varint written equals `oldBodyOffset`; when the
    body is empty and `oldBodyOffset` is 0 neither flag is set and nothing
    follows, regardless of the tree's `bodyOffset`. -/
theorem c3_write_body_flags (r : Revision) (bodyOffset : Nat) :
    (0 < r.body.length →
      ((r.write bodyOffset).getD 8 0).testBit 7 = true ∧
        ((r.write bodyOffset).getD 8 0).testBit 6 = false ∧
        (r.write bodyOffset).drop
            (10 + r.revID.length + (putUVarInt r.sequence).length) = r.body) ∧
    (r.body.length = 0 → 0 < r.oldBodyOffset →
      ((r.write bodyOffset).getD 8 0).testBit 7 = false ∧
        ((r.write bodyOffset).getD 8 0).testBit 6 = true ∧
        (r.write bodyOffset).drop
            (10 + r.revID.length + (putUVarInt r.sequence).length) =
          putUVarInt r.oldBodyOffset) ∧
    (r.body.length = 0 → r.oldBodyOffset = 0 →
      ((r.write bodyOffset).getD 8 0).testBit 7 = false ∧
        ((r.write bodyOffset).getD 8 0).testBit 6 = false ∧
        (r.write bodyOffset).drop
            (10 + r.revID.length + (putUVarInt r.sequence).length) = []) := by
  have hf := write_getD8 r bodyOffset
  have ht := write_tail r bodyOffset
  have hp : persistFlags r < 16 := Nat.lt_trans (persistFlags_lt r) (by omega)
  refine ⟨fun h => ?_, fun h0 h1 => ?_, fun h0 h1 => ?_⟩
  · rw [if_pos h] at hf ht
    obtain ⟨h7, h6, -⟩ := flags_testBits (persistFlags r) 128 hp (by omega)
    rw [hf, ht]
    exact ⟨by simp [h7], by simp [h6], rfl⟩
  · have hb : ¬r.body.length > 0 := by omega
    rw [if_neg hb, if_pos h1] at hf ht
    rw [if_pos (show r.oldBodyOffset ≠ 0 by omega)] at ht
    obtain ⟨h7, h6, -⟩ := flags_testBits (persistFlags r) 64 hp (by omega)
    rw [hf, ht]
    exact ⟨by simp [h7], by simp [h6], rfl⟩
  · have hb : ¬r.body.length > 0 := by omega
    have ho : ¬r.oldBodyOffset > 0 := by omega
    rw [if_neg hb, if_neg ho] at hf ht
    obtain ⟨h7, h6, -⟩ := flags_testBits (persistFlags r) 0 hp (by omega)
    rw [hf, ht]
    exact ⟨by simpa using h7, by simpa using h6, rfl⟩

/-- Witness for `c3_write_body_flags` at a concrete revision with body `[7, 8]`. -/
theorem c3_write_body_flags_witness :
    (((mkRev [49, 45, 97] true kNoParent [7, 8]).write 0).getD 8 0).testBit 7 = true ∧
      (((mkRev [49, 45, 97] true kNoParent [7, 8]).write 0).getD 8 0).testBit 6 = false ∧
      ((mkRev [49, 45, 97] true kNoParent [7, 8]).write 0).drop 14 = [7, 8] :=
  (c3_write_body_flags (mkRev [49, 45, 97] true kNoParent [7, 8]) 0).1 (by decide)

/-- C2: the code contradicts the claim (and its own "Make sure there won't be a
    cycle" comment).  In `cycleTree`, revision 1 (the target, uncompressed) is on
    revision 0's delta-reference chain (`revs[0].deltaRefIndex = 1`), yet
    `compress(target = 1, reference = 0)` returns true, mutates the tree, and
    leaves the two revisions referencing each other — a delta cycle.  The check
    only compares compressed chain links with the (necessarily uncompressed)
    target, so it can never fire. -/
theorem c2_compress_makes_cycle :
    (cycleTree.revs.getD 0 default).deltaRefIndex = 1 ∧
      ((cycleTree.revs.getD 1 default).isCompressed = false) ∧
      (RevTree.compress cdTest adTest cycleTree 1 0).1 = true ∧
      (RevTree.compress cdTest adTest cycleTree 1 0).2 ≠ cycleTree ∧
      ((RevTree.compress cdTest adTest cycleTree 1 0).2.revs.getD 1 default).deltaRefIndex
          = 0 ∧
      ((RevTree.compress cdTest adTest cycleTree 1 0).2.revs.getD 0 default).deltaRefIndex
          = 1 := by
  decide

/-- C9 counterexample: a revision with a non-empty body, no delta dependents, in
    a tree whose `_bodyOffset` is 0.  The claim says `removeBody` succeeds
    without aborting, leaving `oldBodyOffset` at 0; in fact `replaceBody`'s
    `assert(_bodyOffset > 0)` fires (modelled as `none`). -/
theorem c9_counterexample :
    RevTree.removeBody adTest noOffsetTree 0 true = none := by decide

theorem removeBodyScan_no_dependents
    (applyDelta : List Nat → List Nat → List Nat) (i : Nat) (allow : Bool)
    (t : RevTree)
    (hdep : ∀ r ∈ t.revs, r.deltaRefIndex ≠ i) :
    ∀ fuel j, removeBodyScan applyDelta i allow fuel j t =
      (t.replaceBody i none).map fun u => (true, u) := by
  intro fuel
  induction fuel with
  | zero => intro j; rfl
  | succ f ih =>
    intro j
    show removeBodyScan applyDelta i allow (f + 1) j t = _
    rw [removeBodyScan]
    by_cases hj : j < t.revs.length
    · have hmem : t.revs.getD j default ∈ t.revs := by
        rw [List.getD_eq_getElem _ _ hj]
        exact List.getElem_mem hj
      rw [if_pos hj, if_neg (hdep _ hmem)]
      exact ih (j + 1)
    · rw [if_neg hj]

/-- C9 (amended): for a revision with a non-empty body that no other revision
    uses as its delta reference, when the tree has a positive `bodyOffset`,
    `removeBody` returns true, clears the body and records
    `oldBodyOffset = bodyOffset`.  (With `bodyOffset = 0` the assertion guarding
    the clearing path fires instead — see the counterexample.) -/
theorem c9_removeBody (applyDelta : List Nat → List Nat → List Nat)
    (t : RevTree) (i : Nat) (allow : Bool)
    (hb : 0 < (t.revs.getD i default).body.length)
    (hdep : ∀ r ∈ t.revs, r.deltaRefIndex ≠ i)
    (hoff : 0 < t.bodyOffset) :
    RevTree.removeBody applyDelta t i allow =
      some (true,
        { t with
          revs := t.revs.set i
            { t.revs.getD i default with oldBodyOffset := t.bodyOffset, body := [] }
          changed := true }) := by
  unfold RevTree.removeBody
  rw [if_neg (by omega)]
  rw [removeBodyScan_no_dependents applyDelta i allow t hdep]
  unfold RevTree.replaceBody
  rw [if_neg (by omega), if_neg (by omega)]
  rfl

/-- Witness for `c9_removeBody` on a one-revision tree with `bodyOffset = 5`. -/
theorem c9_removeBody_witness :
    0 < (({ noOffsetTree with bodyOffset := 5 } : RevTree).revs.getD 0
        default).body.length ∧
      RevTree.removeBody adTest { noOffsetTree with bodyOffset := 5 } 0 true =
        some (true,
          { revs := [{ mkRev [49, 45, 97] true kNoParent [] with oldBodyOffset := 5 }],
            bodyOffset := 5, sorted := true, changed := true }) :=
  ⟨by decide,
    by
      rw [c9_removeBody adTest { noOffsetTree with bodyOffset := 5 } 0 true
        (by decide) (by decide) (by decide)]
      decide⟩

theorem writeString_shared_miss (w : DWState) (s : List Nat) (c : Bool)
    (hen : w.enableShared = true) (hex : w.externs = none)
    (hmin : kMinSharedStringLength ≤ s.length)
    (hmax : s.length ≤ kMaxSharedStringLength)
    (hcur : w.out.length ≤ 4294967295)
    (h0 : lookupShared w.shared s = 0) :
    writeString w s c =
      some { w with shared := (s, w.out.length) :: w.shared,
                    out := w.out ++ [kStringCode] ++ putUVarInt s.length ++ s } := by
  obtain ⟨wout, wsh, wex, wmax, wen⟩ := w
  simp only at hen hex hcur h0
  subst hen hex
  have hg : ¬4294967295 < wout.length := by omega
  simp [writeString, writeSharedOrPlain, hmin, hmax, hg, h0]

theorem writeString_shared_hit (w : DWState) (s : List Nat) (c : Bool)
    (hen : w.enableShared = true) (hex : w.externs = none)
    (hmin : kMinSharedStringLength ≤ s.length)
    (hmax : s.length ≤ kMaxSharedStringLength)
    (hcur : w.out.length ≤ 4294967295)
    (p : Nat) (hp : lookupShared w.shared s = p) (hppos : 0 < p) :
    writeString w s c =
      some { w with out := (w.out.set p kSharedStringCode) ++
               [kSharedStringRefCode] ++ putUVarInt (w.out.length - p) } := by
  obtain ⟨wout, wsh, wex, wmax, wen⟩ := w
  simp only at hen hex hcur hp
  subst hen hex
  have hg : ¬4294967295 < wout.length := by omega
  simp [writeString, writeSharedOrPlain, hmin, hmax, hg, hp, hppos]

/-- C8 counterexample: with sharing enabled and no extern table, a shareable
    string whose first occurrence's code byte sits at output offset 0 is written
    in full again on its second occurrence — no code byte is rewritten to
    `kSharedStringCode` and no `kSharedStringRefCode` is emitted — because the
    recorded offset 0 is indistinguishable from the string being absent from the
    shared-strings map. -/
theorem c8_counterexample :
    ((writeString sharedWriter strABCD true).bind fun w1 =>
        writeString w1 strABCD true).map DWState.out =
      some [10, 4, 97, 98, 99, 100, 10, 4, 97, 98, 99, 100] ∧
      kStringCode ≠ kSharedStringCode ∧ kStringCode ≠ kSharedStringRefCode := by
  decide

/-- C8 (amended): with sharing enabled, no extern table, and a shareable length,
    (i) a string absent from the shared map (recorded offset 0) is written plain
    and its code-byte offset is recorded, and (ii) a string whose recorded first
    occurrence offset `p` is nonzero has that code byte rewritten to
    `kSharedStringCode` while `kSharedStringRefCode` and the uvarint distance
    (current code-byte offset − `p`) are emitted.  Clause (ii) is the claim,
    amended to require the first occurrence's code byte not to sit at offset 0. -/
theorem c8_shared_rewrite (w : DWState) (s : List Nat) (c : Bool)
    (hen : w.enableShared = true) (hex : w.externs = none)
    (hmin : kMinSharedStringLength ≤ s.length)
    (hmax : s.length ≤ kMaxSharedStringLength)
    (hcur : w.out.length ≤ 4294967295) :
    (lookupShared w.shared s = 0 →
      writeString w s c =
        some { w with shared := (s, w.out.length) :: w.shared,
                      out := w.out ++ [kStringCode] ++ putUVarInt s.length ++ s }) ∧
    (∀ p, lookupShared w.shared s = p → 0 < p →
      writeString w s c =
        some { w with out := (w.out.set p kSharedStringCode) ++
                 [kSharedStringRefCode] ++ putUVarInt (w.out.length - p) }) := by
  exact ⟨fun h0 => writeString_shared_miss w s c hen hex hmin hmax hcur h0,
    fun p hp hppos => writeString_shared_hit w s c hen hex hmin hmax hcur p hp hppos⟩

/-- Witness for `c8_shared_rewrite`: a writer whose map records the string at
    offset 1 rewrites that byte and emits the back-reference with distance 6. -/
theorem c8_shared_rewrite_witness :
    writeString
        { out := [0, 10, 4, 97, 98, 99, 100], shared := [(strABCD, 1)],
          externs := none, maxExterns := 0, enableShared := true } strABCD true =
      some { out := [0, 11, 4, 97, 98, 99, 100, 12, 6], shared := [(strABCD, 1)],
             externs := none, maxExterns := 0, enableShared := true } := by
  rw [(c8_shared_rewrite
    { out := [0, 10, 4, 97, 98, 99, 100], shared := [(strABCD, 1)],
      externs := none, maxExterns := 0, enableShared := true } strABCD true
    (by decide) (by decide) (by decide) (by decide) (by decide)).2 1
    (by decide) (by decide)]
  decide

/-- C10 counterexample: writing the same shareable string three times starting
    from an empty output.  The claim says every later occurrence is written in
    full; in fact the third occurrence is emitted as `kSharedStringRefCode`
    (byte 12 of the output) with distance 6 — referencing the second occurrence,
    whose (nonzero) offset replaced the unusable 0 in the map. -/
theorem c10_counterexample :
    (((writeString sharedWriter strABCD true).bind fun w1 =>
        writeString w1 strABCD true).bind fun w2 =>
          writeString w2 strABCD true).map DWState.out =
      some [10, 4, 97, 98, 99, 100, 11, 4, 97, 98, 99, 100, 12, 6] ∧
      ([10, 4, 97, 98, 99, 100, 11, 4, 97, 98, 99, 100, 12, 6].getD 12 0 =
        kSharedStringRefCode) := by
  decide

/-- C10 (amended): with sharing enabled and no extern table, a shareable string
    first written at output offset 0 records offset 0, so its second occurrence
    is written in full again (the first occurrence's code byte is never
    rewritten) and re-records the second occurrence's nonzero offset; the third
    occurrence is then emitted as a shared-string reference to the second
    occurrence (rewriting the second occurrence's code byte, with distance
    measured from it), not to the first. -/
theorem c10_offset_zero (s : List Nat) (m : Nat)
    (hmin : 4 ≤ s.length) (hmax : s.length ≤ 100) :
    writeString ⟨[], [], none, m, true⟩ s true =
      some ⟨[kStringCode] ++ putUVarInt s.length ++ s, [(s, 0)], none, m, true⟩ ∧
    writeString ⟨[kStringCode] ++ putUVarInt s.length ++ s, [(s, 0)], none, m, true⟩
        s true =
      some ⟨([kStringCode] ++ putUVarInt s.length ++ s) ++
          [kStringCode] ++ putUVarInt s.length ++ s,
        [(s, ([kStringCode] ++ putUVarInt s.length ++ s).length), (s, 0)],
        none, m, true⟩ ∧
    writeString ⟨([kStringCode] ++ putUVarInt s.length ++ s) ++
          [kStringCode] ++ putUVarInt s.length ++ s,
        [(s, ([kStringCode] ++ putUVarInt s.length ++ s).length), (s, 0)],
        none, m, true⟩ s true =
      some ⟨((([kStringCode] ++ putUVarInt s.length ++ s) ++
            [kStringCode] ++ putUVarInt s.length ++ s).set
              ([kStringCode] ++ putUVarInt s.length ++ s).length kSharedStringCode) ++
          [kSharedStringRefCode] ++
          putUVarInt ((([kStringCode] ++ putUVarInt s.length ++ s) ++
              [kStringCode] ++ putUVarInt s.length ++ s).length -
            ([kStringCode] ++ putUVarInt s.length ++ s).length),
        [(s, ([kStringCode] ++ putUVarInt s.length ++ s).length), (s, 0)],
        none, m, true⟩ := by
  have hv : putUVarInt s.length = [s.length] := by
    rw [putUVarInt_eq, if_pos (by omega)]
  have hlen1 : ([kStringCode] ++ putUVarInt s.length ++ s).length = s.length + 2 := by
    rw [hv]; simp [kStringCode]
  have hself : (s == s) = true := by simp
  have hg1 : ¬(4294967295 < ([] : List Nat).length) := by simp
  have hg2 : ¬(4294967295 < ([kStringCode] ++ putUVarInt s.length ++ s).length) := by
    rw [hlen1]; omega
  have hg3 : ¬(4294967295 <
      (([kStringCode] ++ putUVarInt s.length ++ s) ++
        [kStringCode] ++ putUVarInt s.length ++ s).length) := by
    simp only [List.length_append] at hlen1 ⊢
    omega
  have hpos : 0 < ([kStringCode] ++ putUVarInt s.length ++ s).length := by
    rw [hlen1]; omega
  have hl0 : lookupShared [] s = 0 := by simp [lookupShared, List.find?]
  have hl1 : lookupShared [(s, 0)] s = 0 := by
    simp [lookupShared, List.find?, hself]
  have hl2 : lookupShared
      [(s, ([kStringCode] ++ putUVarInt s.length ++ s).length), (s, 0)] s =
      ([kStringCode] ++ putUVarInt s.length ++ s).length := by
    simp [lookupShared, List.find?, hself]
  refine ⟨?_, ?_, ?_⟩
  · rw [writeString_shared_miss ⟨[], [], none, m, true⟩ s true rfl rfl hmin hmax
      (by simp) hl0]
    simp
  · rw [writeString_shared_miss
      ⟨[kStringCode] ++ putUVarInt s.length ++ s, [(s, 0)], none, m, true⟩ s true
      rfl rfl hmin hmax (show ([kStringCode] ++ putUVarInt s.length ++ s).length ≤
        4294967295 by omega) hl1]
  · rw [writeString_shared_hit
      ⟨([kStringCode] ++ putUVarInt s.length ++ s) ++
          [kStringCode] ++ putUVarInt s.length ++ s,
        [(s, ([kStringCode] ++ putUVarInt s.length ++ s).length), (s, 0)],
        none, m, true⟩ s true rfl rfl hmin hmax
      (show (([kStringCode] ++ putUVarInt s.length ++ s) ++
          [kStringCode] ++ putUVarInt s.length ++ s).length ≤ 4294967295 by omega)
      ([kStringCode] ++ putUVarInt s.length ++ s).length hl2 hpos]

/-- Witness for `c10_offset_zero` at the concrete string "abcd". -/
theorem c10_offset_zero_witness :
    writeString ⟨[], [], none, 0, true⟩ strABCD true =
      some ⟨[10, 4, 97, 98, 99, 100], [(strABCD, 0)], none, 0, true⟩ ∧
    writeString ⟨[10, 4, 97, 98, 99, 100], [(strABCD, 0)], none, 0, true⟩
        strABCD true =
      some ⟨[10, 4, 97, 98, 99, 100, 10, 4, 97, 98, 99, 100],
        [(strABCD, 6), (strABCD, 0)], none, 0, true⟩ ∧
    writeString ⟨[10, 4, 97, 98, 99, 100, 10, 4, 97, 98, 99, 100],
        [(strABCD, 6), (strABCD, 0)], none, 0, true⟩ strABCD true =
      some ⟨[10, 4, 97, 98, 99, 100, 11, 4, 97, 98, 99, 100, 12, 6],
        [(strABCD, 6), (strABCD, 0)], none, 0, true⟩ :=
  c10_offset_zero strABCD 0 (by decide) (by decide)

/-- C4 counterexample: revID "0-b" has generation 0 and the supplied parent
    "9-z" is not in the tree.  The claim assigns status 400 to every call whose
    revID has generation 0; the code checks the parent first and returns 404. -/
theorem c4_counterexample :
    generationOf [48, 45, 98] = 0 ∧
      (oneRevTree.insert [48, 45, 98] [] false false (some [57, 45, 122]) true).1 =
        404 ∧
      (404 : Nat) ≠ 400 := by decide

/-- C4 (amended): the status returned by `RevTree::insert` follows the table of
    `insertStatusSpec` — 404 (parent supplied but absent) takes precedence over
    every other check, then 400 for generation 0, then 200 for an existing
    revID, then 409 for a disallowed conflict, then 400 for a generation that is
    not the parent's plus 1, and finally 200 (deletion) or 201; the tree is
    unchanged on every non-inserting status and gains exactly the new revision
    (via `_insert`) otherwise. -/
theorem c4_insert_status (t : RevTree) (id body : List Nat) (deleted hasAtt : Bool)
    (parentRevID : Option (List Nat)) (allowConflict : Bool) :
    (t.insert id body deleted hasAtt parentRevID allowConflict).1 =
        insertStatusSpec t id deleted parentRevID allowConflict ∧
      ((t.insert id body deleted hasAtt parentRevID allowConflict).1 = 404 ∨
        (t.insert id body deleted hasAtt parentRevID allowConflict).1 = 409 ∨
        (t.insert id body deleted hasAtt parentRevID allowConflict).1 = 400 →
        (t.insert id body deleted hasAtt parentRevID allowConflict).2 = t) ∧
      ((t.insert id body deleted hasAtt parentRevID allowConflict).1 = 200 →
        (t.findRev id).isSome = true →
        (t.insert id body deleted hasAtt parentRevID allowConflict).2 = t) ∧
      ((t.insert id body deleted hasAtt parentRevID allowConflict).1 = 201 ∨
        ((t.insert id body deleted hasAtt parentRevID allowConflict).1 = 200 ∧
          (t.findRev id).isNone = true) →
        (t.insert id body deleted hasAtt parentRevID allowConflict).2 =
          t.insertRaw id body
            (match parentRevID with | some pid => t.findRev pid | none => none)
            deleted hasAtt) := by
  cases parentRevID with
  | none =>
    simp only [RevTree.insert, insertStatusSpec, RevTree.insertWithParent]
    by_cases hg : generationOf id = 0
    · simp [hg]
    · cases hfr : t.findRev id with
      | some q => simp [hg, hfr]
      | none =>
        by_cases hc : allowConflict
        · subst hc
          by_cases hg1 : generationOf id = 1
          · cases deleted <;> simp_all
          · simp_all
        · have hcb : allowConflict = false := by
            cases allowConflict
            · rfl
            · exact absurd rfl hc
          subst hcb
          by_cases hn : 0 < t.revs.length
          · simp_all
          · by_cases hg1 : generationOf id = 1
            · cases deleted <;> simp_all
            · simp_all
  | some pid =>
    cases hpf : t.findRev pid with
    | none => simp [RevTree.insert, insertStatusSpec, hpf]
    | some p =>
      simp only [RevTree.insert, insertStatusSpec, RevTree.insertWithParent, hpf]
      by_cases hg : generationOf id = 0
      · simp [hg]
      · cases hfr : t.findRev id with
        | some q => simp [hg, hfr]
        | none =>
          by_cases hc : allowConflict
          · subst hc
            by_cases hg1 : generationOf id =
                generationOf (t.revs.getD p default).revID + 1
            · cases deleted <;> simp_all
            · simp_all
          · have hcb : allowConflict = false := by
              cases allowConflict
              · rfl
              · exact absurd rfl hc
            subst hcb
            by_cases hl : (t.revs.getD p default).isLeaf = true
            · by_cases hg1 : generationOf id =
                  generationOf (t.revs.getD p default).revID + 1
              · cases deleted <;> simp_all
              · simp_all
            · simp_all

/-- Witness for `c4_insert_status`: inserting 2-b under the existing leaf 1-a
    appends the new revision via `_insert`. -/
theorem c4_insert_status_witness :
    (oneRevTree.insert [50, 45, 98] [7] false false (some [49, 45, 97]) false).2 =
      oneRevTree.insertRaw [50, 45, 98] [7] (some 0) false false :=
  (c4_insert_status oneRevTree [50, 45, 98] [7] false false
    (some [49, 45, 97]) false).2.2.2 (Or.inl (by decide))

theorem map_tup_set_isLeaf (revs : List Revision) (p : Nat) :
    ((revs.set p { revs.getD p default with isLeaf := false }).map
        fun r => (r.revID, r.body, r.isDeleted, r.hasAttachments)) =
      revs.map fun r => (r.revID, r.body, r.isDeleted, r.hasAttachments) := by
  by_cases hp : p < revs.length
  · apply List.ext_getElem (by simp)
    intro n h1 h2
    simp only [List.getElem_map, List.getElem_set]
    split
    · next hpn =>
        subst hpn
        rw [List.getD_eq_getElem _ _ hp]
    · rfl
  · rw [List.set_eq_of_length_le (by omega)]

theorem insertRaw_map_tup (t : RevTree) (id body : List Nat) (parent : Option Nat)
    (deleted hasAtt : Bool) :
    ((t.insertRaw id body parent deleted hasAtt).revs.map
        fun r => (r.revID, r.body, r.isDeleted, r.hasAttachments)) =
      (t.revs.map fun r => (r.revID, r.body, r.isDeleted, r.hasAttachments)) ++
        [(id, body, deleted, hasAtt)] := by
  unfold RevTree.insertRaw
  cases parent with
  | none => simp [mkNewRevision]
  | some p =>
    rw [List.map_append, map_tup_set_isLeaf]
    simp [mkNewRevision]

theorem chainInsertNew_map_tup (history : List (List Nat)) (data : List Nat)
    (deleted hasAtt : Bool) :
    ∀ i parent t, 1 ≤ i → i ≤ history.length →
      ((chainInsertNew history data deleted hasAtt i parent t).revs.map
          fun r => (r.revID, r.body, r.isDeleted, r.hasAttachments)) =
        (t.revs.map fun r => (r.revID, r.body, r.isDeleted, r.hasAttachments)) ++
          ((history.take i).drop 1).reverse.map
            (fun id => (id, ([] : List Nat), false, false)) ++
          [(history.getD 0 [], data, deleted, hasAtt)] := by
  intro i
  induction i with
  | zero => intro parent t h1 _; omega
  | succ k ih =>
    intro parent t _ hle
    cases k with
    | zero =>
      show ((t.insertRaw (history.getD 0 []) data parent deleted hasAtt).revs.map _) = _
      rw [insertRaw_map_tup]
      have h1 : (history.take 1).drop 1 = [] := by
        cases history <;> simp
      rw [h1]
      simp
    | succ k2 =>
      show ((chainInsertNew history data deleted hasAtt (k2 + 1) (some t.revs.length)
          (t.insertRaw (history.getD (k2 + 1) []) [] parent false false)).revs.map _) = _
      rw [ih (some t.revs.length) _ (by omega) (by omega), insertRaw_map_tup]
      have hk2 : k2 + 1 < history.length := by omega
      have htake : history.take (k2 + 2) =
          history.take (k2 + 1) ++ [history.getD (k2 + 1) []] := by
        rw [List.take_succ, List.getElem?_eq_getElem hk2,
          List.getD_eq_getElem _ _ hk2]
        simp
      rw [htake, List.drop_append_of_le_length (by simp; omega), List.reverse_append]
      simp

theorem le_firstPresent_of_absent (t : RevTree) (history : List (List Nat))
    (j : Nat) (hj : j ≤ history.length)
    (habs : ∀ k, k < j → presentIn t (history.getD k []) = false) :
    j ≤ firstPresent t history := by
  by_contra h
  push_neg at h
  have hfp : firstPresent t history < history.length := by omega
  have h1 : presentIn t (history[firstPresent t history]) = true :=
    List.findIdx_getElem (w := hfp)
  have h2 := habs (firstPresent t history) (by omega)
  rw [List.getD_eq_getElem _ _ hfp] at h2
  rw [h1] at h2
  exact absurd h2 (by simp)

theorem firstPresent_le_of_present (t : RevTree) (history : List (List Nat))
    (j : Nat) (hj : j < history.length)
    (hp : presentIn t (history.getD j []) = true) :
    firstPresent t history ≤ j := by
  by_contra h
  push_neg at h
  have h1 : presentIn t (history[j]) = false := List.not_of_lt_findIdx h
  rw [List.getD_eq_getElem _ _ hj, h1] at hp
  exact absurd hp (by simp)

theorem list_any_congr {α : Type} (l : List α) (p q : α → Bool)
    (h : ∀ a ∈ l, p a = q a) : l.any p = l.any q := by
  induction l with
  | nil => rfl
  | cons a l ih =>
    simp only [List.any_cons]
    rw [h a (by simp), ih fun b hb => h b (by simp [hb])]

theorem historyPreflight_char (t : RevTree) (history : List (List Nat)) :
    ∀ fuel j lastGen,
      j + fuel = history.length →
      (∀ k, k < j → presentIn t (history.getD k []) = false) →
      lastGen = (if j = 0 then 0 else generationOf (history.getD (j - 1) [])) →
      historyPreflight t history fuel j lastGen =
        (if ((List.range history.length).any fun k =>
              decide (j ≤ k) && decide (1 ≤ k) &&
                decide (k ≤ firstPresent t history) &&
                decide (0 < generationOf (history.getD (k - 1) [])) &&
                decide (generationOf (history.getD k []) ≠
                  generationOf (history.getD (k - 1) []) - 1)) = true
         then none
         else some (firstPresent t history,
           if firstPresent t history < history.length then
             t.findRev (history.getD (firstPresent t history) [])
           else none)) := by
  intro fuel
  induction fuel with
  | zero =>
    intro j lastGen hlen habs _hlast
    have hj : j = history.length := by omega
    subst hj
    have hfp : firstPresent t history = history.length := by
      have h1 := le_firstPresent_of_absent t history history.length (Nat.le_refl _) habs
      have h2 : firstPresent t history ≤ history.length := List.findIdx_le_length _
      omega
    have hany : ((List.range history.length).any fun k =>
        decide (history.length ≤ k) && decide (1 ≤ k) &&
          decide (k ≤ firstPresent t history) &&
          decide (0 < generationOf (history.getD (k - 1) [])) &&
          decide (generationOf (history.getD k []) ≠
            generationOf (history.getD (k - 1) []) - 1)) = false := by
      rw [List.any_eq_false]
      intro k hk
      simp only [List.mem_range] at hk
      simp only [Bool.and_eq_true, decide_eq_true_eq, not_and]
      intro h1
      omega
    rw [hany]
    show some (history.length, none) = _
    rw [if_neg (by simp), hfp, if_neg (by omega)]
  | succ f ih =>
    intro j lastGen hlen habs hlast
    have hj : j < history.length := by omega
    rw [historyPreflight, if_pos hj]
    by_cases hviol : 0 < lastGen ∧
        generationOf (history.getD j []) ≠ lastGen - 1
    · rw [if_pos hviol]
      have hj1 : 1 ≤ j := by
        by_contra h
        have hz : j = 0 := by omega
        subst hz
        rw [if_pos rfl] at hlast
        omega
      rw [hlast, if_neg (by omega : ¬j = 0)] at hviol
      have hjfp : j ≤ firstPresent t history :=
        le_firstPresent_of_absent t history j (by omega) habs
      have hany : ((List.range history.length).any fun k =>
          decide (j ≤ k) && decide (1 ≤ k) &&
            decide (k ≤ firstPresent t history) &&
            decide (0 < generationOf (history.getD (k - 1) [])) &&
            decide (generationOf (history.getD k []) ≠
              generationOf (history.getD (k - 1) []) - 1)) = true := by
        rw [List.any_eq_true]
        refine ⟨j, List.mem_range.mpr hj, ?_⟩
        simp only [Bool.and_eq_true, decide_eq_true_eq]
        exact ⟨⟨⟨⟨Nat.le_refl j, hj1⟩, hjfp⟩, hviol.1⟩, hviol.2⟩
      rw [hany, if_pos rfl]
    · rw [if_neg hviol]
      have hnoviolj : ¬(1 ≤ j ∧ 0 < generationOf (history.getD (j - 1) []) ∧
          generationOf (history.getD j []) ≠
            generationOf (history.getD (j - 1) []) - 1) := by
        rintro ⟨h1, h2, h3⟩
        apply hviol
        rw [hlast, if_neg (by omega : ¬j = 0)]
        exact ⟨h2, h3⟩
      cases hfr : t.findRev (history.getD j []) with
      | some p =>
        have hpres : presentIn t (history.getD j []) = true := by
          unfold presentIn
          rw [hfr]
          rfl
        have hfpj : firstPresent t history = j :=
          Nat.le_antisymm (firstPresent_le_of_present t history j hj hpres)
            (le_firstPresent_of_absent t history j (by omega) habs)
        have hany : ((List.range history.length).any fun k =>
            decide (j ≤ k) && decide (1 ≤ k) &&
              decide (k ≤ firstPresent t history) &&
              decide (0 < generationOf (history.getD (k - 1) [])) &&
              decide (generationOf (history.getD k []) ≠
                generationOf (history.getD (k - 1) []) - 1)) = false := by
          rw [List.any_eq_false]
          intro k hk
          simp only [List.mem_range] at hk
          simp only [Bool.and_eq_true, decide_eq_true_eq, not_and]
          rintro ⟨⟨⟨hA, hB⟩, hC⟩, hD⟩ hE
          have hkj : k = j := by omega
          subst hkj
          exact hnoviolj ⟨hB, hD, hE⟩
        rw [hany]
        rw [if_neg (by simp), hfpj, if_pos hj, hfr]
      | none =>
        have habs' : ∀ k, k < j + 1 → presentIn t (history.getD k []) = false := by
          intro k hk
          by_cases hkj : k = j
          · subst hkj
            unfold presentIn
            rw [hfr]
            rfl
          · exact habs k (by omega)
        rw [ih (j + 1) (generationOf (history.getD j []))
          (by omega) habs' (by simp)]
        have hcong : ((List.range history.length).any fun k =>
            decide (j + 1 ≤ k) && decide (1 ≤ k) &&
              decide (k ≤ firstPresent t history) &&
              decide (0 < generationOf (history.getD (k - 1) [])) &&
              decide (generationOf (history.getD k []) ≠
                generationOf (history.getD (k - 1) []) - 1)) =
            ((List.range history.length).any fun k =>
            decide (j ≤ k) && decide (1 ≤ k) &&
              decide (k ≤ firstPresent t history) &&
              decide (0 < generationOf (history.getD (k - 1) [])) &&
              decide (generationOf (history.getD k []) ≠
                generationOf (history.getD (k - 1) []) - 1)) := by
          apply list_any_congr
          intro k hk
          by_cases hkj : k = j
          · subst hkj
            have hr : decide (k + 1 ≤ k) = false := by simp
            cases hd1 : decide (1 ≤ k) with
            | false => simp [hd1]
            | true =>
              simp only [decide_eq_true_eq] at hd1
              cases hd2 : decide (0 < generationOf (history.getD (k - 1) [])) with
              | false => simp [hd2]
              | true =>
                cases hd3 : decide (generationOf (history.getD k []) ≠
                    generationOf (history.getD (k - 1) []) - 1) with
                | false => simp [hd3]
                | true =>
                  simp only [decide_eq_true_eq] at hd2 hd3
                  exact absurd ⟨hd1, hd2, hd3⟩ hnoviolj
          · have : (decide (j + 1 ≤ k)) = (decide (j ≤ k)) := by
              by_cases hlt : j ≤ k
              · have : j + 1 ≤ k := by omega
                simp [hlt, this]
              · have : ¬(j + 1 ≤ k) := by omega
                simp [hlt, this]
            rw [this]
        rw [hcong]

/-- C7 counterexample: the tree contains 1-a and the history list is
    [2-b, 1-a, 5-x].  The adjacent pair (1-a, 5-x) violates the
    decrease-by-exactly-1 rule (5 ≠ 1 − 1), so the claim requires −1 with
    nothing inserted; the scan stops at the common ancestor 1-a before ever
    checking that pair, returns 1, and inserts 2-b. -/
theorem c7_counterexample :
    generationOf [53, 45, 120] ≠ generationOf [49, 45, 97] - 1 ∧
      (oneRevTree.insertHistory [[50, 45, 98], [49, 45, 97], [53, 45, 120]]
          [7] false false).1 = 1 ∧
      (1 : Int) ≠ -1 ∧
      (oneRevTree.insertHistory [[50, 45, 98], [49, 45, 97], [53, 45, 120]]
          [7] false false).2.revs.length = 2 := by decide

/-- C7 (amended): `insertHistory` returns −1 and inserts nothing exactly when
    some non-initial entry at or before the first entry already present in the
    tree fails to decrease the (positive) previous generation by exactly 1
    (`historyGenGap`); otherwise it returns the index of the first present entry
    (the list length when none is), and the tree gains exactly the earlier
    entries, oldest first, with empty bodies — except `history[0]`, which
    receives the given body, deleted and hasAttachments values. -/
theorem c7_insertHistory (t : RevTree) (history : List (List Nat))
    (data : List Nat) (deleted hasAtt : Bool) :
    (historyGenGap t history = true →
      t.insertHistory history data deleted hasAtt = (-1, t)) ∧
    (historyGenGap t history = false →
      (t.insertHistory history data deleted hasAtt).1 =
        Int.ofNat (firstPresent t history) ∧
      ((t.insertHistory history data deleted hasAtt).2.revs.map
          fun r => (r.revID, r.body, r.isDeleted, r.hasAttachments)) =
        (t.revs.map fun r => (r.revID, r.body, r.isDeleted, r.hasAttachments)) ++
          ((history.take (firstPresent t history)).drop 1).reverse.map
            (fun id => (id, ([] : List Nat), false, false)) ++
          (if 0 < firstPresent t history then
            [(history.getD 0 [], data, deleted, hasAtt)] else [])) := by
  have hpre := historyPreflight_char t history history.length 0 0 (by omega)
    (fun k hk => absurd hk (Nat.not_lt_zero k)) (by simp)
  have hpred : ((List.range history.length).any fun k =>
      decide (0 ≤ k) && decide (1 ≤ k) &&
        decide (k ≤ firstPresent t history) &&
        decide (0 < generationOf (history.getD (k - 1) [])) &&
        decide (generationOf (history.getD k []) ≠
          generationOf (history.getD (k - 1) []) - 1)) = historyGenGap t history := by
    unfold historyGenGap
    apply list_any_congr
    intro k _
    simp
  rw [hpred] at hpre
  have hins : t.insertHistory history data deleted hasAtt =
      (if historyGenGap t history = true then ((-1 : Int), t)
       else if 0 < firstPresent t history then
         (Int.ofNat (firstPresent t history),
           chainInsertNew history data deleted hasAtt (firstPresent t history)
             (if firstPresent t history < history.length then
               t.findRev (history.getD (firstPresent t history) [])
             else none) t)
       else (Int.ofNat (firstPresent t history), t)) := by
    unfold RevTree.insertHistory
    rw [hpre]
    by_cases hg : historyGenGap t history = true
    · rw [if_pos hg, if_pos hg]
    · rw [if_neg hg, if_neg hg]
  constructor
  · intro hg
    rw [hins, if_pos hg]
  · intro hg
    rw [hins, if_neg (by rw [hg]; simp)]
    by_cases hfp : 0 < firstPresent t history
    · rw [if_pos hfp, if_pos hfp]
      refine ⟨rfl, ?_⟩
      rw [chainInsertNew_map_tup history data deleted hasAtt
        (firstPresent t history) _ t hfp (List.findIdx_le_length _)]
    · rw [if_neg hfp, if_neg hfp]
      refine ⟨rfl, ?_⟩
      have h0 : firstPresent t history = 0 := by omega
      rw [h0]
      simp

/-- Witness for `c7_insertHistory`: history [3-c, 2-b, 1-a] over a tree holding
    1-a inserts 2-b then 3-c (the latter with the given body and deletion flag)
    and returns 2. -/
theorem c7_insertHistory_witness :
    historyGenGap oneRevTree [[51, 45, 99], [50, 45, 98], [49, 45, 97]] = false ∧
      ((oneRevTree.insertHistory [[51, 45, 99], [50, 45, 98], [49, 45, 97]]
            [7] true false).1 =
          Int.ofNat 2 ∧
        ((oneRevTree.insertHistory [[51, 45, 99], [50, 45, 98], [49, 45, 97]]
              [7] true false).2.revs.map
            fun r => (r.revID, r.body, r.isDeleted, r.hasAttachments)) =
          [([49, 45, 97], [], false, false), ([50, 45, 98], [], false, false),
            ([51, 45, 99], [7], true, false)]) := by
  refine ⟨by decide, ?_⟩
  have h := (c7_insertHistory oneRevTree [[51, 45, 99], [50, 45, 98], [49, 45, 97]]
    [7] true false).2 (by decide)
  refine ⟨h.1, ?_⟩
  rw [h.2]
  decide

theorem writeRev_length (r : Revision) (off : Nat) :
    (r.write off).length = r.sizeToWrite := by
  unfold Revision.write Revision.sizeToWrite
  by_cases hb : r.body.length > 0
  · simp [hb, be32, be16]
    omega
  · by_cases ho : r.oldBodyOffset > 0
    · simp [hb, ho, be32, be16, if_pos (show r.oldBodyOffset ≠ 0 by omega)]
      omega
    · simp [hb, ho, be32, be16]
      omega

theorem sizeToWrite_ge (r : Revision) : 11 ≤ r.sizeToWrite := by
  unfold Revision.sizeToWrite
  have := putUVarInt_length_pos r.sequence
  omega

theorem getBE32_be32_append (s : Nat) (l : List Nat) (hs : s < 4294967296) :
    getBE32 (be32 s ++ l) = s := by
  simp [be32, getBE32]
  omega

theorem getBE16_pair (a : Nat) (l : List Nat) :
    getBE16 (be16 a ++ l) = a % 65536 := by
  simp [be16, getBE16]
  omega

theorem write_drop4 (r : Revision) (off : Nat) :
    getBE16 ((r.write off).drop 4) = r.parentIndex % 65536 := by
  unfold Revision.write
  rw [show be32 r.sizeToWrite ++ be16 r.parentIndex ++ be16 r.deltaRefIndex ++
      [persistFlags r +
        (if r.body.length > 0 then 128 else if r.oldBodyOffset > 0 then 64 else 0)] ++
      [r.revID.length % 256] ++ r.revID ++ putUVarInt r.sequence ++
      (if r.body.length > 0 then r.body
       else if r.oldBodyOffset > 0 then
         putUVarInt (if r.oldBodyOffset ≠ 0 then r.oldBodyOffset else off)
       else []) =
    be32 r.sizeToWrite ++ (be16 r.parentIndex ++ (be16 r.deltaRefIndex ++
      ([persistFlags r +
        (if r.body.length > 0 then 128 else if r.oldBodyOffset > 0 then 64 else 0)] ++
      ([r.revID.length % 256] ++ (r.revID ++ (putUVarInt r.sequence ++
      (if r.body.length > 0 then r.body
       else if r.oldBodyOffset > 0 then
         putUVarInt (if r.oldBodyOffset ≠ 0 then r.oldBodyOffset else off)
       else []))))))) from by simp]
  rw [show (4 : Nat) = (be32 r.sizeToWrite).length from by simp [be32],
    List.drop_left]
  exact getBE16_pair _ _

theorem write_drop6 (r : Revision) (off : Nat) :
    getBE16 ((r.write off).drop 6) = r.deltaRefIndex % 65536 := by
  have h : (r.write off).drop 6 = ((r.write off).drop 4).drop 2 := by
    rw [List.drop_drop]
  rw [h]
  unfold Revision.write
  rw [show be32 r.sizeToWrite ++ be16 r.parentIndex ++ be16 r.deltaRefIndex ++
      [persistFlags r +
        (if r.body.length > 0 then 128 else if r.oldBodyOffset > 0 then 64 else 0)] ++
      [r.revID.length % 256] ++ r.revID ++ putUVarInt r.sequence ++
      (if r.body.length > 0 then r.body
       else if r.oldBodyOffset > 0 then
         putUVarInt (if r.oldBodyOffset ≠ 0 then r.oldBodyOffset else off)
       else []) =
    be32 r.sizeToWrite ++ (be16 r.parentIndex ++ (be16 r.deltaRefIndex ++
      ([persistFlags r +
        (if r.body.length > 0 then 128 else if r.oldBodyOffset > 0 then 64 else 0)] ++
      ([r.revID.length % 256] ++ (r.revID ++ (putUVarInt r.sequence ++
      (if r.body.length > 0 then r.body
       else if r.oldBodyOffset > 0 then
         putUVarInt (if r.oldBodyOffset ≠ 0 then r.oldBodyOffset else off)
       else []))))))) from by simp]
  rw [show (4 : Nat) = (be32 r.sizeToWrite).length from by simp [be32],
    List.drop_left]
  rw [show (2 : Nat) = (be16 r.parentIndex).length from by simp [be16],
    List.drop_left]
  exact getBE16_pair _ _

theorem persistFlags_testBit0 (r : Revision) :
    (persistFlags r).testBit 0 = r.isDeleted := by
  unfold persistFlags
  cases r.isDeleted <;> cases r.isLeaf <;> cases r.hasAttachments <;> decide

theorem persistFlags_testBit1 (r : Revision) :
    (persistFlags r).testBit 1 = r.isLeaf := by
  unfold persistFlags
  cases r.isDeleted <;> cases r.isLeaf <;> cases r.hasAttachments <;> decide

theorem persistFlags_testBit3 (r : Revision) :
    (persistFlags r).testBit 3 = r.hasAttachments := by
  unfold persistFlags
  cases r.isDeleted <;> cases r.isLeaf <;> cases r.hasAttachments <;> decide

theorem write_data_part (r : Revision) (off : Nat) :
    (r.write off).drop (10 + r.revID.length) =
      putUVarInt r.sequence ++
        (if r.body.length > 0 then r.body
         else if r.oldBodyOffset > 0 then
           putUVarInt (if r.oldBodyOffset ≠ 0 then r.oldBodyOffset else off)
         else []) := by
  rw [← List.drop_drop, write_drop_header, List.append_assoc, List.drop_left]

theorem readRawRevision_write (r : Revision) (off : Nat)
    (hid : r.revID.length ≤ 255) :
    readRawRevision (r.write off) = some (decodedRev r) := by
  have h9 : (r.write off).getD 9 0 = r.revID.length := by
    rw [write_getD9, Nat.mod_eq_of_lt (by omega)]
  have h10 : ((r.write off).drop 10).take r.revID.length = r.revID := by
    rw [write_drop_header, List.append_assoc, List.take_left]
  have hdata := write_data_part r off
  have hf := write_getD8 r off
  have hp : persistFlags r < 16 := Nat.lt_trans (persistFlags_lt r) (by omega)
  unfold readRawRevision
  dsimp only
  rw [h9, hdata, getUVarInt_put]
  dsimp only
  rw [List.drop_left, hf, h10, write_drop4, write_drop6]
  by_cases hb : r.body.length > 0
  · obtain ⟨h7, h6, h0, h1, h3⟩ := flags_testBits (persistFlags r) 128 hp (by omega)
    simp [hb, h7, h6, h0, h1, h3, decodedRev] <;>
      (unfold persistFlags; cases r.isDeleted <;> cases r.isLeaf <;>
        cases r.hasAttachments <;> decide)
  · by_cases ho : r.oldBodyOffset > 0
    · obtain ⟨h7, h6, h0, h1, h3⟩ := flags_testBits (persistFlags r) 64 hp (by omega)
      have hne : r.oldBodyOffset ≠ 0 := by omega
      have hget : getUVarInt (putUVarInt r.oldBodyOffset) =
          some (r.oldBodyOffset, (putUVarInt r.oldBodyOffset).length) := by
        have h := getUVarInt_put r.oldBodyOffset []
        simpa using h
      have hbe : r.body = [] := List.length_eq_zero.mp (by omega)
      simp [hb, hbe, ho, hne, h7, h6, h0, h1, h3, decodedRev, hget] <;>
        (unfold persistFlags; cases r.isDeleted <;> cases r.isLeaf <;>
          cases r.hasAttachments <;> decide)
    · obtain ⟨h7, h6, h0, h1, h3⟩ := flags_testBits (persistFlags r) 0 hp (by omega)
      rw [Nat.add_zero] at h7 h6 h0 h1 h3
      have hbe : r.body = [] := List.length_eq_zero.mp (by omega)
      have hoe : r.oldBodyOffset = 0 := by omega
      simp [hb, hbe, ho, hoe, h7, h6, h0, h1, h3, decodedRev] <;>
        (unfold persistFlags; cases r.isDeleted <;> cases r.isLeaf <;>
          cases r.hasAttachments <;> decide)

theorem writeAll_cons (r : Revision) (rs : List Revision) (off : Nat) :
    writeAll (r :: rs) off = r.write off ++ writeAll rs off := by
  simp [writeAll]

theorem parseRecords_writeAll (off : Nat) :
    ∀ (revs : List Revision) (fuel : Nat),
      (∀ r ∈ revs, r.revID.length ≤ 255 ∧ r.sizeToWrite < 4294967296) →
      revs.length < fuel →
      parseRecords fuel (writeAll revs off) =
        some (revs.map decodedRev, [0, 0, 0, 0]) := by
  intro revs
  induction revs with
  | nil =>
    intro fuel _ hf
    cases fuel with
    | zero => omega
    | succ f =>
      show parseRecords (f + 1) [0, 0, 0, 0] = _
      rw [parseRecords]
      simp [getBE32]
  | cons r rs ih =>
    intro fuel hwf hf
    cases fuel with
    | zero => simp at hf
    | succ f =>
      obtain ⟨hid, hsz⟩ := hwf r (by simp)
      have hlen := writeRev_length r off
      have hge := sizeToWrite_ge r
      rw [writeAll_cons, parseRecords]
      have hblen : (r.write off ++ writeAll rs off).length =
          r.sizeToWrite + (writeAll rs off).length := by
        simp [hlen]
      rw [if_neg (by omega)]
      have hbe : getBE32 (r.write off ++ writeAll rs off) = r.sizeToWrite := by
        unfold Revision.write
        rw [List.append_assoc, List.append_assoc, List.append_assoc,
          List.append_assoc, List.append_assoc, List.append_assoc,
          List.append_assoc]
        exact getBE32_be32_append _ _ hsz
      rw [hbe, if_neg (by omega), if_neg (by omega)]
      have htake : (r.write off ++ writeAll rs off).take r.sizeToWrite =
          r.write off := by
        rw [← hlen, List.take_left]
      have hdrop : (r.write off ++ writeAll rs off).drop r.sizeToWrite =
          writeAll rs off := by
        rw [← hlen, List.drop_left]
      rw [htake, hdrop, readRawRevision_write r off hid,
        ih f (fun x hx => hwf x (by simp [hx])) (by simp at hf; omega)]
      rfl

theorem tagRevs_length : ∀ (l : List Revision) (i : Nat), (tagRevs i l).length = l.length := by
  intro l
  induction l with
  | nil => intro i; rfl
  | cons r rs ih => intro i; simp [tagRevs, ih]

theorem mem_tagRevs : ∀ (l : List Revision) (i : Nat) (x : Revision),
    x ∈ tagRevs i l →
    ∃ j, j < l.length ∧ x = { l.getD j default with parentIndex := i + j } := by
  intro l
  induction l with
  | nil => intro i x hx; simp [tagRevs] at hx
  | cons r rs ih =>
    intro i x hx
    simp only [tagRevs, List.mem_cons] at hx
    cases hx with
    | inl h => exact ⟨0, by simp, by simp [h]⟩
    | inr h =>
      obtain ⟨j, hj, hx⟩ := ih (i + 1) x h
      refine ⟨j + 1, ?_, ?_⟩
      · simpa using Nat.succ_lt_succ hj
      rw [hx]
      have : (r :: rs).getD (j + 1) default = rs.getD j default := by simp
      rw [this]
      have hpe : i + 1 + j = i + (j + 1) := by omega
      rw [hpe]

theorem writeAll_length_ge (off : Nat) :
    ∀ revs : List Revision, revs.length ≤ (writeAll revs off).length := by
  intro revs
  induction revs with
  | nil => simp [writeAll]
  | cons r rs ih =>
    rw [writeAll_cons]
    have h1 := writeRev_length r off
    have h2 := sizeToWrite_ge r
    simp only [List.length_append, List.length_cons]
    omega

theorem sort_revs_wf (t : RevTree) (hc : t.revs.length ≤ 65535)
    (hWF : ∀ r ∈ t.revs, r.revID.length ≤ 255 ∧ r.parentIndex < 65536 ∧
      r.deltaRefIndex < 65536 ∧ r.sizeToWrite < 4294967296) :
    (t.sort).revs.length = t.revs.length ∧
      ∀ y ∈ (t.sort).revs, y.revID.length ≤ 255 ∧ y.parentIndex < 65536 ∧
        y.deltaRefIndex < 65536 ∧ y.sizeToWrite < 4294967296 := by
  unfold RevTree.sort
  by_cases hs : t.sorted
  · rw [if_pos hs]
    exact ⟨rfl, hWF⟩
  · rw [if_neg hs]
    dsimp only
    have hlen : (List.insertionSort revLE (tagRevs 0 t.revs)).length =
        t.revs.length := by
      rw [(List.perm_insertionSort revLE (tagRevs 0 t.revs)).length_eq,
        tagRevs_length]
    constructor
    · simp [hlen]
    · intro y hy
      simp only [List.mem_map] at hy
      obtain ⟨x, hx, hyx⟩ := hy
      have hx' : x ∈ tagRevs 0 t.revs :=
        (List.perm_insertionSort revLE _).mem_iff.mp hx
      obtain ⟨j, hj, hxj⟩ := mem_tagRevs t.revs 0 x hx'
      have hmem : t.revs.getD j default ∈ t.revs := by
        rw [List.getD_eq_getElem _ _ hj]
        exact List.getElem_mem hj
      obtain ⟨h1, _h2, _h3, h4⟩ := hWF _ hmem
      subst hyx
      subst hxj
      refine ⟨h1, ?_, ?_, h4⟩
      · dsimp only
        split
        · decide
        · exact Nat.lt_of_le_of_lt (List.findIdx_le_length _) (by omega)
      · dsimp only
        split
        · decide
        · exact Nat.lt_of_le_of_lt (List.findIdx_le_length _) (by omega)

theorem persistedFields_decoded (seq : Nat) (r : Revision)
    (hp : r.parentIndex < 65536) (hd : r.deltaRefIndex < 65536) :
    persistedFields (if (decodedRev r).sequence = 0 then
      { decodedRev r with sequence := seq } else decodedRev r) =
      persistedFieldsSeq seq r := by
  unfold decodedRev persistedFields persistedFieldsSeq
  by_cases h : r.sequence = 0 <;>
    simp [h, Nat.mod_eq_of_lt hp, Nat.mod_eq_of_lt hd]

set_option synthInstance.maxSize 1000 in
/-- C1 (counterexample): the round-trip does not hold unconditionally.  A tree
    whose single revision has a 256-byte revID encodes with `revIDLen =
    (uint8_t)256 = 0`, so decoding yields an empty revID (and a garbage
    sequence read from the revID bytes) instead of the original fields. -/
theorem c1_counterexample :
    (RevTree.decode bigIDTree.encode 1 0).map
        (fun u => (u.sort).revs.map persistedFields) ≠
      some ((bigIDTree.sort).revs.map (persistedFieldsSeq 1)) := by
  decide

/-- C1: `decode(encode(t))` succeeds and reproduces every revision's persistent
    fields — revID, the Deleted/Leaf/HasAttachments flags, parent and delta
    indices, sequence (with stored sequence 0 replaced by the document
    sequence), and body — for every tree within the encoding's limits: at most
    65535 revisions, each revID at most 255 bytes, index fields below 2^16 and
    each record smaller than 2^32 bytes. -/
theorem c1_roundtrip (t : RevTree) (seq docOffset : Nat)
    (hc : t.revs.length ≤ 65535)
    (hWF : ∀ r ∈ t.revs, r.revID.length ≤ 255 ∧ r.parentIndex < 65536 ∧
      r.deltaRefIndex < 65536 ∧ r.sizeToWrite < 4294967296) :
    ∃ u, RevTree.decode t.encode seq docOffset = some u ∧
      (u.sort).revs.map persistedFields =
        (t.sort).revs.map (persistedFieldsSeq seq) := by
  obtain ⟨hslen, hswf⟩ := sort_revs_wf t hc hWF
  have hfuel : (t.sort).revs.length <
      (writeAll (t.sort).revs t.bodyOffset).length + 1 :=
    Nat.lt_succ_of_le (writeAll_length_ge t.bodyOffset (t.sort).revs)
  have hparse := parseRecords_writeAll t.bodyOffset (t.sort).revs
    ((writeAll (t.sort).revs t.bodyOffset).length + 1)
    (fun r hr => ⟨(hswf r hr).1, (hswf r hr).2.2.2⟩) hfuel
  refine ⟨{ revs := ((t.sort).revs.map decodedRev).map fun r =>
              if r.sequence = 0 then { r with sequence := seq } else r,
            bodyOffset := docOffset, sorted := true, changed := false }, ?_, ?_⟩
  · show RevTree.decode (writeAll (t.sort).revs t.bodyOffset) seq docOffset = _
    unfold RevTree.decode
    rw [hparse]
    dsimp only
    rw [if_neg (by simp only [List.length_map, gt_iff_lt, not_lt]; omega),
      if_pos (by rfl)]
  · have hsortu : ∀ M : List Revision,
        (RevTree.sort (RevTree.mk M docOffset true false)).revs = M := by
      intro M; rfl
    rw [hsortu, List.map_map, List.map_map]
    refine List.map_congr_left ?_
    intro r hr
    obtain ⟨_, hp, hd, _⟩ := hswf r hr
    exact persistedFields_decoded seq r hp hd

/-- Witness for `c1_roundtrip` at the concrete tree `witTree` (all hypotheses
    hold there). -/
theorem c1_roundtrip_witness :
    witTree.revs.length ≤ 65535 ∧
    (∀ r ∈ witTree.revs, r.revID.length ≤ 255 ∧ r.parentIndex < 65536 ∧
      r.deltaRefIndex < 65536 ∧ r.sizeToWrite < 4294967296) ∧
    ∃ u, RevTree.decode witTree.encode 5 0 = some u ∧
      (u.sort).revs.map persistedFields =
        (witTree.sort).revs.map (persistedFieldsSeq 5) :=
  ⟨by decide, by decide, c1_roundtrip witTree 5 0 (by decide) (by decide)⟩

theorem piter_add (revs : List Revision) : ∀ a b i,
    piter revs (a + b) i = piter revs b (piter revs a i) := by
  intro a
  induction a with
  | zero =>
    intro b i
    rw [Nat.zero_add]
    rfl
  | succ a ih =>
    intro b i
    rw [show a + 1 + b = (a + b) + 1 from by omega]
    show piter revs (a + b) (pstep revs i) = piter revs b (piter revs a (pstep revs i))
    exact ih b (pstep revs i)

theorem piter_absorb (revs : List Revision) : ∀ k, piter revs k kNoParent = kNoParent := by
  intro k
  induction k with
  | zero => rfl
  | succ k ih =>
    show piter revs k (pstep revs kNoParent) = kNoParent
    rw [show pstep revs kNoParent = kNoParent from by unfold pstep; rw [if_pos rfl]]
    exact ih

theorem piter_cycle_mul (revs : List Revision) (k j : Nat)
    (h : piter revs k j = j) : ∀ m, piter revs (m * k) j = j := by
  intro m
  induction m with
  | zero => rw [Nat.zero_mul]; rfl
  | succ m ih =>
    rw [show (m + 1) * k = m * k + k from by ring, piter_add, ih, h]

theorem lexLess_asymm : ∀ a b : List Nat, lexLess a b = true → lexLess b a = false
  | [], [], h => by simp [lexLess] at h
  | [], _ :: _, _ => by simp [lexLess]
  | _ :: _, [], h => by simp [lexLess] at h
  | x :: xs, y :: ys, h => by
    unfold lexLess at h ⊢
    by_cases hxy : x < y
    · rw [if_neg (by omega), if_pos hxy]
    · rw [if_neg hxy] at h
      by_cases hyx : y < x
      · rw [if_pos hyx] at h
        exact absurd h (by simp)
      · rw [if_neg hyx] at h
        rw [if_neg hyx, if_neg hxy]
        exact lexLess_asymm xs ys h

theorem lexLess_neg_trans : ∀ a b c : List Nat,
    lexLess a b = false → lexLess b c = false → lexLess a c = false
  | [], _, [], _, _ => by simp [lexLess]
  | _ :: _, _, [], _, _ => by simp [lexLess]
  | [], [], _ :: _, _, h2 => by simp [lexLess] at h2
  | [], _ :: _, _ :: _, h1, _ => by simp [lexLess] at h1
  | _ :: _, [], _ :: _, _, h2 => by simp [lexLess] at h2
  | x :: xs, z :: zs, y :: ys, h1, h2 => by
    unfold lexLess at h1 h2 ⊢
    by_cases hxz : x < z
    · rw [if_pos hxz] at h1
      exact absurd h1 (by simp)
    · rw [if_neg hxz] at h1
      by_cases hzy : z < y
      · rw [if_pos hzy] at h2
        exact absurd h2 (by simp)
      · rw [if_neg hzy] at h2
        by_cases hxy : x < y
        · omega
        · rw [if_neg hxy]
          by_cases hyx : y < x
          · rw [if_pos hyx]
          · rw [if_neg hyx]
            by_cases hzx : z < x
            · omega
            · rw [if_neg hzx] at h1
              by_cases hyz : y < z
              · omega
              · rw [if_neg hyz] at h2
                exact lexLess_neg_trans xs zs ys h1 h2

theorem revidLess_eq_true (a b : List Nat) : revidLess a b = true ↔
    (generationOf a < generationOf b ∨
      (generationOf a = generationOf b ∧
        lexLess (suffixOf a) (suffixOf b) = true)) := by
  unfold revidLess
  simp only [Bool.or_eq_true, Bool.and_eq_true, beq_iff_eq, Nat.blt_eq]

theorem revidLess_eq_false (a b : List Nat) : revidLess a b = false ↔
    (generationOf b ≤ generationOf a ∧
      (generationOf a = generationOf b → lexLess (suffixOf a) (suffixOf b) = false)) := by
  rw [← Bool.not_eq_true, revidLess_eq_true]
  constructor
  · intro h
    push_neg at h
    refine ⟨by omega, fun he => ?_⟩
    cases hx : lexLess (suffixOf a) (suffixOf b) with
    | false => rfl
    | true => exact absurd hx (h.2 he)
  · rintro ⟨hle, himp⟩ (h | ⟨he, hs⟩)
    · omega
    · rw [himp he] at hs
      exact absurd hs (by simp)

theorem revidLess_asymm (a b : List Nat) (h : revidLess a b = true) :
    revidLess b a = false := by
  rw [revidLess_eq_true] at h
  rw [revidLess_eq_false]
  rcases h with h | ⟨he, hs⟩
  · exact ⟨by omega, fun h2 => by omega⟩
  · exact ⟨by omega, fun h2 => lexLess_asymm _ _ hs⟩

theorem revidLess_neg_trans (a b c : List Nat)
    (h1 : revidLess a b = false) (h2 : revidLess b c = false) :
    revidLess a c = false := by
  rw [revidLess_eq_false] at h1 h2 ⊢
  obtain ⟨hba, h1i⟩ := h1
  obtain ⟨hcb, h2i⟩ := h2
  refine ⟨by omega, fun hac => ?_⟩
  exact lexLess_neg_trans _ _ _ (h1i (by omega)) (h2i (by omega))

theorem revBefore_congr (a b a2 b2 : Revision)
    (ha1 : a2.isLeaf = a.isLeaf) (ha2 : a2.isDeleted = a.isDeleted)
    (ha3 : a2.revID = a.revID)
    (hb1 : b2.isLeaf = b.isLeaf) (hb2 : b2.isDeleted = b.isDeleted)
    (hb3 : b2.revID = b.revID) :
    revBefore a2 b2 = revBefore a b := by
  unfold revBefore
  rw [ha1, ha2, ha3, hb1, hb2, hb3]

theorem revBefore_asymm (a b : Revision) (h : revBefore a b = true) :
    revBefore b a = false := by
  unfold revBefore at h ⊢
  by_cases hl : a.isLeaf = b.isLeaf
  · rw [if_neg (by simp [hl])] at h
    rw [if_neg (by simp [hl])]
    by_cases hdd : a.isDeleted = b.isDeleted
    · rw [if_neg (by simp [hdd])] at h
      rw [if_neg (by simp [hdd])]
      exact revidLess_asymm _ _ h
    · rw [if_pos hdd] at h
      rw [if_pos (fun hh => hdd hh.symm)]
      cases hA : a.isDeleted with
      | false => rfl
      | true => rw [h, hA] at hdd; exact absurd rfl hdd
  · rw [if_pos hl] at h
    rw [if_pos (fun hh => hl hh.symm)]
    cases hB : b.isLeaf with
    | false => rfl
    | true => rw [h, hB] at hl; exact absurd rfl hl

theorem revBefore_neg_trans (a b c : Revision)
    (h1 : revBefore b a = false) (h2 : revBefore c b = false) :
    revBefore c a = false := by
  have hnt := revidLess_neg_trans a.revID b.revID c.revID
  unfold revBefore at h1 h2 ⊢
  cases hLa : a.isLeaf <;> cases hLb : b.isLeaf <;> cases hLc : c.isLeaf <;>
    cases hDa : a.isDeleted <;> cases hDb : b.isDeleted <;> cases hDc : c.isDeleted <;>
    simp_all

theorem tagRevs_map_parentIndex : ∀ (l : List Revision) (i : Nat),
    (tagRevs i l).map (fun r => r.parentIndex) = List.range' i l.length := by
  intro l
  induction l with
  | nil => intro i; rfl
  | cons r rs ih =>
    intro i
    simp [tagRevs, List.range'_succ, ih]

/-- C5: after `sort()` on an unsorted tree whose indices are in range and whose
    parent chains terminate, the revisions are in descending priority order
    (leaves first, then non-deleted, then higher revID first — so `revs[0]` is
    the winner), there is a bijective index correspondence under which every
    revision keeps its non-index fields and its parent and delta references
    denote the same revisions as before, and every parentIndex chain still
    terminates at `kNoParent` and contains no cycles. -/
theorem c5_sort (t : RevTree)
    (hns : t.sorted = false)
    (hn : t.revs.length ≤ 65535)
    (hp : ∀ r ∈ t.revs, r.parentIndex = kNoParent ∨ r.parentIndex < t.revs.length)
    (hd : ∀ r ∈ t.revs, r.deltaRefIndex = kNoParent ∨ r.deltaRefIndex < t.revs.length)
    (hterm : ∀ i, i < t.revs.length →
      ∃ k, k ≤ t.revs.length ∧ piter t.revs k i = kNoParent) :
    List.Pairwise revLE (t.sort).revs ∧
    (t.sort).revs.length = t.revs.length ∧
    (∃ π : Nat → Nat,
      (∀ j, j < t.revs.length → π j < t.revs.length) ∧
      (∀ j1, j1 < t.revs.length → ∀ j2, j2 < t.revs.length → π j1 = π j2 → j1 = j2) ∧
      (∀ j, j < t.revs.length →
        coreFields ((t.sort).revs.getD j default) =
          coreFields (t.revs.getD (π j) default) ∧
        ((t.revs.getD (π j) default).parentIndex = kNoParent →
          ((t.sort).revs.getD j default).parentIndex = kNoParent) ∧
        ((t.revs.getD (π j) default).parentIndex ≠ kNoParent →
          ((t.sort).revs.getD j default).parentIndex < t.revs.length ∧
          π (((t.sort).revs.getD j default).parentIndex) =
            (t.revs.getD (π j) default).parentIndex) ∧
        ((t.revs.getD (π j) default).deltaRefIndex = kNoParent →
          ((t.sort).revs.getD j default).deltaRefIndex = kNoParent) ∧
        ((t.revs.getD (π j) default).deltaRefIndex ≠ kNoParent →
          ((t.sort).revs.getD j default).deltaRefIndex < t.revs.length ∧
          π (((t.sort).revs.getD j default).deltaRefIndex) =
            (t.revs.getD (π j) default).deltaRefIndex))) ∧
    (∀ j, j < t.revs.length → ∃ k, piter (t.sort).revs k j = kNoParent) ∧
    (∀ j, j < t.revs.length → ∀ k, 0 < k → piter (t.sort).revs k j ≠ j) := by
  set S := List.insertionSort revLE (tagRevs 0 t.revs) with hS
  set F := (fun r : Revision =>
      { r with
        parentIndex :=
          (let p := (t.revs.map (fun x : Revision => x.parentIndex)).getD
             r.parentIndex kNoParent
           if p = kNoParent then kNoParent
           else S.findIdx fun r2 : Revision => r2.parentIndex == p)
        deltaRefIndex :=
          if r.deltaRefIndex = kNoParent then kNoParent
          else S.findIdx fun r2 : Revision => r2.parentIndex == r.deltaRefIndex }) with hF
  have hrw : (t.sort).revs = S.map F := by
    unfold RevTree.sort
    rw [hns]
    rfl
  have hperm : S.Perm (tagRevs 0 t.revs) := List.perm_insertionSort revLE _
  have hSlen : S.length = t.revs.length := by
    rw [hperm.length_eq, tagRevs_length]
  have hcookies : (S.map fun r => r.parentIndex).Perm (List.range' 0 t.revs.length) := by
    have h := hperm.map fun r => r.parentIndex
    rwa [tagRevs_map_parentIndex] at h
  have hnodup : (S.map fun r => r.parentIndex).Nodup := by
    rw [hcookies.nodup_iff, ← List.range_eq_range']
    exact List.nodup_range _
  have hcook : ∀ j, j < t.revs.length →
      (S.getD j default).parentIndex < t.revs.length ∧
      S.getD j default =
        { t.revs.getD ((S.getD j default).parentIndex) default with
          parentIndex := (S.getD j default).parentIndex } := by
    intro j hj
    have hjS : j < S.length := by omega
    have hmem : S.getD j default ∈ tagRevs 0 t.revs := by
      rw [List.getD_eq_getElem _ _ hjS]
      exact hperm.mem_iff.mp (List.getElem_mem hjS)
    obtain ⟨c, hcn, hxc⟩ := mem_tagRevs t.revs 0 _ hmem
    rw [Nat.zero_add] at hxc
    have hπj : (S.getD j default).parentIndex = c := by rw [hxc]
    rw [hπj]
    exact ⟨hcn, hxc⟩
  have hfind : ∀ q, q < t.revs.length →
      (S.findIdx fun r2 => r2.parentIndex == q) < t.revs.length ∧
      (S.getD (S.findIdx fun r2 => r2.parentIndex == q) default).parentIndex = q := by
    intro q hq
    have hex : ∃ x ∈ S, (fun r2 => r2.parentIndex == q) x = true := by
      have hqmem : q ∈ S.map fun r => r.parentIndex := by
        rw [hcookies.mem_iff, List.mem_range']
        exact ⟨q, hq, by omega⟩
      obtain ⟨x, hx, hxq⟩ := List.mem_map.mp hqmem
      exact ⟨x, hx, by simp [hxq]⟩
    have hlt := List.findIdx_lt_length_of_exists hex
    have hgot := @List.findIdx_getElem _ _ S hlt
    refine ⟨by omega, ?_⟩
    rw [List.getD_eq_getElem _ _ hlt]
    simpa using hgot
  have hinj : ∀ j1, j1 < t.revs.length → ∀ j2, j2 < t.revs.length →
      (S.getD j1 default).parentIndex = (S.getD j2 default).parentIndex → j1 = j2 := by
    intro j1 h1 j2 h2 heq
    have h1S : j1 < S.length := by omega
    have h2S : j2 < S.length := by omega
    have hj1m : j1 < (S.map fun r => r.parentIndex).length := by simpa using h1S
    have hj2m : j2 < (S.map fun r => r.parentIndex).length := by simpa using h2S
    have hmeq : (S.map fun r => r.parentIndex)[j1] =
        (S.map fun r => r.parentIndex)[j2] := by
      rw [List.getElem_map, List.getElem_map]
      rw [List.getD_eq_getElem _ _ h1S, List.getD_eq_getElem _ _ h2S] at heq
      exact heq
    exact (hnodup.getElem_inj_iff).mp hmeq
  have hsorted : List.Pairwise revLE S := by
    have htot : IsTotal Revision revLE :=
      ⟨fun a b => by
        cases h : revBefore b a with
        | false => exact Or.inl h
        | true => exact Or.inr (revBefore_asymm b a h)⟩
    have htrans : IsTrans Revision revLE :=
      ⟨fun a b c h1 h2 => revBefore_neg_trans a b c h1 h2⟩
    exact @List.sorted_insertionSort Revision revLE _ htot htrans (tagRevs 0 t.revs)
  have hpair : List.Pairwise revLE (S.map F) := by
    refine List.Pairwise.map F ?_ hsorted
    intro a b hab
    have hcong : revBefore (F b) (F a) = revBefore b a :=
      revBefore_congr b a (F b) (F a) rfl rfl rfl rfl rfl rfl
    unfold revLE at hab ⊢
    rw [hcong]
    exact hab
  have hmap_getD : ∀ j, j < t.revs.length →
      (S.map F).getD j default = F (S.getD j default) := by
    intro j hj
    have hjS : j < S.length := by omega
    rw [List.getD_eq_getElem _ _ (by simpa using hjS), List.getElem_map,
      List.getD_eq_getElem _ _ hjS]
  have holdP : ∀ c, c < t.revs.length →
      (t.revs.map (·.parentIndex)).getD c kNoParent =
        (t.revs.getD c default).parentIndex := by
    intro c hc
    rw [List.getD_eq_getElem _ _ (by simpa using hc), List.getElem_map,
      List.getD_eq_getElem _ _ hc]
  have hcorr : ∀ j, j < t.revs.length →
      coreFields ((S.map F).getD j default) =
        coreFields (t.revs.getD ((S.getD j default).parentIndex) default) ∧
      ((t.revs.getD ((S.getD j default).parentIndex) default).parentIndex = kNoParent →
        ((S.map F).getD j default).parentIndex = kNoParent) ∧
      ((t.revs.getD ((S.getD j default).parentIndex) default).parentIndex ≠ kNoParent →
        ((S.map F).getD j default).parentIndex < t.revs.length ∧
        (S.getD (((S.map F).getD j default).parentIndex) default).parentIndex =
          (t.revs.getD ((S.getD j default).parentIndex) default).parentIndex) ∧
      ((t.revs.getD ((S.getD j default).parentIndex) default).deltaRefIndex =
          kNoParent →
        ((S.map F).getD j default).deltaRefIndex = kNoParent) ∧
      ((t.revs.getD ((S.getD j default).parentIndex) default).deltaRefIndex ≠
          kNoParent →
        ((S.map F).getD j default).deltaRefIndex < t.revs.length ∧
        (S.getD (((S.map F).getD j default).deltaRefIndex) default).parentIndex =
          (t.revs.getD ((S.getD j default).parentIndex) default).deltaRefIndex) := by
    intro j hj
    obtain ⟨hclt, hceq⟩ := hcook j hj
    have hmem : t.revs.getD ((S.getD j default).parentIndex) default ∈ t.revs := by
      rw [List.getD_eq_getElem _ _ hclt]
      exact List.getElem_mem hclt
    have hFeq : (S.map F).getD j default = F (S.getD j default) := hmap_getD j hj
    have hδ : (S.getD j default).deltaRefIndex =
        (t.revs.getD ((S.getD j default).parentIndex) default).deltaRefIndex := by
      rw [hceq]
    have hFp : (F (S.getD j default)).parentIndex =
        (if (t.revs.getD ((S.getD j default).parentIndex) default).parentIndex =
            kNoParent then kNoParent
         else S.findIdx fun r2 => r2.parentIndex ==
           (t.revs.getD ((S.getD j default).parentIndex) default).parentIndex) := by
      show (if (t.revs.map (·.parentIndex)).getD
            ((S.getD j default).parentIndex) kNoParent = kNoParent then kNoParent
          else S.findIdx fun r2 => r2.parentIndex ==
            (t.revs.map (·.parentIndex)).getD
              ((S.getD j default).parentIndex) kNoParent) = _
      rw [holdP _ hclt]
    have hFd : (F (S.getD j default)).deltaRefIndex =
        (if (t.revs.getD ((S.getD j default).parentIndex) default).deltaRefIndex =
            kNoParent then kNoParent
         else S.findIdx fun r2 => r2.parentIndex ==
           (t.revs.getD ((S.getD j default).parentIndex) default).deltaRefIndex) := by
      show (if (S.getD j default).deltaRefIndex = kNoParent then kNoParent
          else S.findIdx fun r2 => r2.parentIndex ==
            (S.getD j default).deltaRefIndex) = _
      rw [hδ]
    refine ⟨?_, ?_, ?_, ?_, ?_⟩
    · rw [hFeq]
      show coreFields (S.getD j default) =
        coreFields (t.revs.getD ((S.getD j default).parentIndex) default)
      rw [hceq]
      rfl
    · intro h
      rw [hFeq, hFp, if_pos h]
    · intro h
      rw [hFeq, hFp, if_neg h]
      have hq : (t.revs.getD ((S.getD j default).parentIndex) default).parentIndex <
          t.revs.length := by
        rcases hp _ hmem with h1 | h1
        · exact absurd h1 h
        · exact h1
      exact hfind _ hq
    · intro h
      rw [hFeq, hFd, if_pos h]
    · intro h
      rw [hFeq, hFd, if_neg h]
      have hq : (t.revs.getD ((S.getD j default).parentIndex) default).deltaRefIndex <
          t.revs.length := by
        rcases hd _ hmem with h1 | h1
        · exact absurd h1 h
        · exact h1
      exact hfind _ hq
  have hterm2 : ∀ k j, j < t.revs.length →
      piter t.revs k ((S.getD j default).parentIndex) = kNoParent →
      ∃ k2, piter (S.map F) k2 j = kNoParent := by
    intro k
    induction k with
    | zero =>
      intro j hj h0
      exfalso
      have hπ := (hcook j hj).1
      have h0e : (S.getD j default).parentIndex = kNoParent := h0
      simp only [kNoParent] at h0e
      omega
    | succ k ih =>
      intro j hj hk
      have hπ := (hcook j hj).1
      have hπne : ¬((S.getD j default).parentIndex = kNoParent) := by
        simp only [kNoParent]
        omega
      have hk2 : piter t.revs k
          ((t.revs.getD ((S.getD j default).parentIndex) default).parentIndex) =
          kNoParent := by
        have hk3 : piter t.revs k (pstep t.revs ((S.getD j default).parentIndex)) =
            kNoParent := hk
        rwa [show pstep t.revs ((S.getD j default).parentIndex) =
            (t.revs.getD ((S.getD j default).parentIndex) default).parentIndex from by
          unfold pstep; rw [if_neg hπne]] at hk3
      have hjne : ¬(j = kNoParent) := by
        simp only [kNoParent]
        omega
      by_cases hq : (t.revs.getD ((S.getD j default).parentIndex) default).parentIndex =
          kNoParent
      · refine ⟨1, ?_⟩
        show piter (S.map F) 0 (pstep (S.map F) j) = kNoParent
        show pstep (S.map F) j = kNoParent
        unfold pstep
        rw [if_neg hjne]
        exact (hcorr j hj).2.1 hq
      · obtain ⟨hlt2, hπeq⟩ := (hcorr j hj).2.2.1 hq
        rw [← hπeq] at hk2
        obtain ⟨k2, hk2'⟩ := ih _ hlt2 hk2
        refine ⟨k2 + 1, ?_⟩
        show piter (S.map F) k2 (pstep (S.map F) j) = kNoParent
        rwa [show pstep (S.map F) j = ((S.map F).getD j default).parentIndex from by
          unfold pstep; rw [if_neg hjne]]
  have htermF : ∀ j, j < t.revs.length →
      ∃ k2, piter (S.map F) k2 j = kNoParent := by
    intro j hj
    obtain ⟨k, _, hk⟩ := hterm ((S.getD j default).parentIndex) ((hcook j hj).1)
    exact hterm2 k j hj hk
  have hnocyc : ∀ j, j < t.revs.length → ∀ k, 0 < k →
      piter (S.map F) k j ≠ j := by
    intro j hj k hk hcyc
    obtain ⟨k2, hk2⟩ := htermF j hj
    have h1 : piter (S.map F) (k2 * k) j = j := piter_cycle_mul _ k j hcyc k2
    have hle : k2 ≤ k2 * k := by
      calc k2 = k2 * 1 := (Nat.mul_one k2).symm
        _ ≤ k2 * k := Nat.mul_le_mul_left k2 hk
    rw [show k2 * k = k2 + (k2 * k - k2) from by omega, piter_add, hk2,
      piter_absorb] at h1
    simp only [kNoParent] at h1
    omega
  rw [hrw]
  refine ⟨hpair, by simp [hSlen],
    ⟨fun j => (S.getD j default).parentIndex, fun j hj => (hcook j hj).1,
      hinj, hcorr⟩, htermF, hnocyc⟩

/-- Witness for `c5_sort` at the concrete unsorted tree `witTree` (all
    hypotheses hold there; leaf 2-b sorts ahead of root 1-a). -/
theorem c5_sort_witness :
    witTree.sorted = false ∧
    (List.Pairwise revLE (witTree.sort).revs ∧
     (witTree.sort).revs.length = witTree.revs.length ∧
     (∃ π : Nat → Nat,
       (∀ j, j < witTree.revs.length → π j < witTree.revs.length) ∧
       (∀ j1, j1 < witTree.revs.length → ∀ j2, j2 < witTree.revs.length →
         π j1 = π j2 → j1 = j2) ∧
       (∀ j, j < witTree.revs.length →
         coreFields ((witTree.sort).revs.getD j default) =
           coreFields (witTree.revs.getD (π j) default) ∧
         ((witTree.revs.getD (π j) default).parentIndex = kNoParent →
           ((witTree.sort).revs.getD j default).parentIndex = kNoParent) ∧
         ((witTree.revs.getD (π j) default).parentIndex ≠ kNoParent →
           ((witTree.sort).revs.getD j default).parentIndex < witTree.revs.length ∧
           π (((witTree.sort).revs.getD j default).parentIndex) =
             (witTree.revs.getD (π j) default).parentIndex) ∧
         ((witTree.revs.getD (π j) default).deltaRefIndex = kNoParent →
           ((witTree.sort).revs.getD j default).deltaRefIndex = kNoParent) ∧
         ((witTree.revs.getD (π j) default).deltaRefIndex ≠ kNoParent →
           ((witTree.sort).revs.getD j default).deltaRefIndex < witTree.revs.length ∧
           π (((witTree.sort).revs.getD j default).deltaRefIndex) =
             (witTree.revs.getD (π j) default).deltaRefIndex))) ∧
     (∀ j, j < witTree.revs.length →
       ∃ k, piter (witTree.sort).revs k j = kNoParent) ∧
     (∀ j, j < witTree.revs.length → ∀ k, 0 < k →
       piter (witTree.sort).revs k j ≠ j)) :=
  ⟨rfl, c5_sort witTree rfl (by decide) (by decide) (by decide) (by decide)⟩

theorem foldr_max_mem : ∀ L : List Nat, L ≠ [] → L.foldr max 0 ∈ L := by
  intro L
  induction L with
  | nil => intro h; exact absurd rfl h
  | cons a rest ih =>
    intro _
    cases hr : rest with
    | nil => simp
    | cons b rest2 =>
      rw [← hr]
      show max a (rest.foldr max 0) ∈ a :: rest
      rcases max_choice a (rest.foldr max 0) with h | h
      · rw [h]; exact List.mem_cons_self a rest
      · rw [h]
        exact List.mem_cons_of_mem a (ih (by rw [hr]; simp))

theorem le_foldr_max : ∀ L : List Nat, ∀ x ∈ L, x ≤ L.foldr max 0 := by
  intro L
  induction L with
  | nil => intro x hx; simp at hx
  | cons a rest ih =>
    intro x hx
    rcases List.mem_cons.mp hx with h | h
    · subst h
      exact Nat.le_max_left _ _
    · exact Nat.le_trans (ih x h) (Nat.le_max_right _ _)

theorem piter_succ_right (revs : List Revision) (k i : Nat) :
    piter revs (k + 1) i = pstep revs (piter revs k i) := by
  rw [piter_add revs k 1 i]
  rfl

theorem piter_absorb_forward (revs : List Revision) (a b l : Nat)
    (hab : a ≤ b) (ha : piter revs a l = kNoParent) :
    piter revs b l = kNoParent := by
  rw [show b = a + (b - a) from by omega, piter_add, ha, piter_absorb]

theorem piter_cycle_no_term (revs : List Revision) (y c k : Nat) (hc : 0 < c)
    (hcyc : piter revs c y = y) (hk : piter revs k y = kNoParent) :
    y = kNoParent := by
  have h1 : piter revs (k * c) y = y := piter_cycle_mul revs c y hcyc k
  have hle : k ≤ k * c := by
    calc k = k * 1 := (Nat.mul_one k).symm
      _ ≤ k * c := Nat.mul_le_mul_left k hc
  rw [show k * c = k + (k * c - k) from by omega, piter_add, hk, piter_absorb] at h1
  exact h1.symm

theorem piter_range (revs : List Revision)
    (hp : ∀ r ∈ revs, r.parentIndex = kNoParent ∨ r.parentIndex < revs.length) :
    ∀ k i, i < revs.length → piter revs k i < revs.length ∨ piter revs k i = kNoParent := by
  intro k
  induction k with
  | zero => intro i hi; exact Or.inl hi
  | succ k ih =>
    intro i hi
    rw [piter_succ_right]
    rcases ih i hi with h | h
    · have hmem : revs.getD (piter revs k i) default ∈ revs := by
        rw [List.getD_eq_getElem _ _ h]
        exact List.getElem_mem h
      unfold pstep
      by_cases he : piter revs k i = kNoParent
      · rw [if_pos he]; exact Or.inr rfl
      · rw [if_neg he]
        rcases hp _ hmem with h2 | h2
        · exact Or.inr h2
        · exact Or.inl h2
    · rw [h]
      unfold pstep
      rw [if_pos rfl]
      exact Or.inr rfl

theorem piter_inj_live (revs : List Revision)
    (hn : revs.length ≤ 65535)
    (hterm : ∀ i, i < revs.length →
      ∃ k, k ≤ revs.length ∧ piter revs k i = kNoParent)
    (l a b : Nat) (hab : a < b)
    (hlta : piter revs a l < revs.length)
    (heq : piter revs a l = piter revs b l) : False := by
  have hcyc : piter revs (b - a) (piter revs a l) = piter revs a l := by
    have h := piter_add revs a (b - a) l
    rw [show a + (b - a) = b from by omega] at h
    rw [← h, ← heq]
  obtain ⟨k2, _, hk2⟩ := hterm (piter revs a l) hlta
  have := piter_cycle_no_term revs (piter revs a l) (b - a) k2 (by omega) hcyc hk2
  unfold kNoParent at this
  omega

theorem piter_dist_lt (revs : List Revision)
    (hn : revs.length ≤ 65535)
    (hp : ∀ r ∈ revs, r.parentIndex = kNoParent ∨ r.parentIndex < revs.length)
    (hterm : ∀ i, i < revs.length →
      ∃ k, k ≤ revs.length ∧ piter revs k i = kNoParent)
    (l k : Nat) (hl : l < revs.length) (hk : piter revs k l ≠ kNoParent) :
    k < revs.length := by
  have hlive : ∀ a, a ≤ k → piter revs a l ≠ kNoParent := by
    intro a ha hcon
    exact hk (piter_absorb_forward revs a k l ha hcon)
  have hrange : ∀ a, a ≤ k → piter revs a l < revs.length := by
    intro a ha
    rcases piter_range revs hp a l hl with h | h
    · exact h
    · exact absurd h (hlive a ha)
  have hnodup : ((List.range (k + 1)).map fun a => piter revs a l).Nodup := by
    refine List.Nodup.map_on ?_ (List.nodup_range _)
    intro x hx y hy hxy
    rw [List.mem_range] at hx hy
    by_contra hne
    rcases Nat.lt_or_ge x y with hlt | hge
    · exact piter_inj_live revs hn hterm l x y hlt (hrange x (by omega)) hxy
    · have hlt : y < x := by omega
      exact piter_inj_live revs hn hterm l y x hlt (hrange y (by omega)) hxy.symm
  have hsub : ((List.range (k + 1)).map fun a => piter revs a l) ⊆
      List.range revs.length := by
    intro x hx
    rw [List.mem_map] at hx
    obtain ⟨a, ha, hax⟩ := hx
    rw [List.mem_range] at ha
    rw [List.mem_range, ← hax]
    exact hrange a (by omega)
  have hlen := (List.subperm_of_subset hnodup hsub).length_le
  simp at hlen
  omega

theorem leavesUpTo_zero (revs : List Revision) : leavesUpTo revs 0 = [] := rfl

theorem leavesUpTo_succ_leaf (revs : List Revision) (m : Nat)
    (h : (revs.getD m default).isLeaf = true) :
    leavesUpTo revs (m + 1) = leavesUpTo revs m ++ [m] := by
  unfold leavesUpTo
  rw [List.range_succ, List.filter_append, List.filter_cons, if_pos h]
  rfl

theorem leavesUpTo_succ_nonleaf (revs : List Revision) (m : Nat)
    (h : (revs.getD m default).isLeaf = false) :
    leavesUpTo revs (m + 1) = leavesUpTo revs m := by
  unfold leavesUpTo
  rw [List.range_succ, List.filter_append, List.filter_cons,
    if_neg (by rw [h]; simp), List.filter_nil, List.append_nil]

theorem leavesUpTo_ge (revs : List Revision) :
    ∀ m, revs.length ≤ m → leavesUpTo revs m = leavesUpTo revs revs.length := by
  intro m
  induction m with
  | zero =>
    intro h
    rw [Nat.le_zero.mp h]
  | succ m ih =>
    intro h
    rcases Nat.lt_or_ge revs.length (m + 1) with h2 | h2
    · have hm : revs.length ≤ m := by omega
      rw [← ih hm]
      apply leavesUpTo_succ_nonleaf
      rw [List.getD_eq_default _ _ hm]
      rfl
    · have : revs.length = m + 1 := by omega
      rw [this]

theorem leavesUpTo_mem (revs : List Revision) (m l : Nat)
    (h : l ∈ leavesUpTo revs m) :
    l < revs.length ∧ (revs.getD l default).isLeaf = true := by
  unfold leavesUpTo at h
  rw [List.mem_filter, List.mem_range] at h
  obtain ⟨hlm, hleaf⟩ := h
  refine ⟨?_, hleaf⟩
  by_contra hge
  rw [List.getD_eq_default _ _ (by omega)] at hleaf
  exact absurd hleaf (by decide)

theorem if_false_bool (n1 n2 : Nat) :
    (if (false : Bool) = true then n1 else n2) = n2 := rfl

theorem maxVal_congr (A B : List Nat)
    (hAB : ∀ c ∈ A, c ∈ B)
    (hBA : ∀ k ∈ B, ∃ c ∈ A, k ≤ c) :
    (if A.isEmpty then 65535 else A.foldr max 0) =
      (if B.isEmpty then 65535 else B.foldr max 0) := by
  cases hA : A.isEmpty with
  | true =>
    rw [List.isEmpty_iff] at hA
    subst hA
    cases hB : B.isEmpty with
    | true => rfl
    | false =>
      rw [List.isEmpty_eq_false_iff_exists_mem] at hB
      obtain ⟨k, hk⟩ := hB
      obtain ⟨c, hc, _⟩ := hBA k hk
      simp at hc
  | false =>
    have hBne : B.isEmpty = false := by
      rw [List.isEmpty_eq_false_iff_exists_mem] at hA ⊢
      obtain ⟨c, hc⟩ := hA
      exact ⟨c, hAB c hc⟩
    rw [hBne, if_false_bool, if_false_bool]
    have hle1 : A.foldr max 0 ≤ B.foldr max 0 := by
      rw [List.isEmpty_eq_false_iff_exists_mem] at hA
      obtain ⟨c0, hc0⟩ := hA
      have hmem := foldr_max_mem A (by intro he; rw [he] at hc0; simp at hc0)
      exact le_foldr_max B _ (hAB _ hmem)
    have hle2 : B.foldr max 0 ≤ A.foldr max 0 := by
      have hmem := foldr_max_mem B (by
        intro he
        rw [he] at hBne
        simp at hBne)
      obtain ⟨c, hc, hkc⟩ := hBA _ hmem
      exact Nat.le_trans hkc (le_foldr_max A c hc)
    omega

theorem depthCandsMid_zero (revs : List Revision) (m l idx : Nat) :
    depthCandsMid revs m l 0 idx = depthCandsUpTo revs m idx := by
  unfold depthCandsMid depthCandsUpTo
  apply List.filter_congr
  intro k _
  simp

theorem depthValMid_zero (revs : List Revision) (m l idx : Nat) :
    depthValMid revs m l 0 idx = depthValUpTo revs m idx := by
  unfold depthValMid depthValUpTo
  rw [depthCandsMid_zero]

theorem depthCandsMid_full (revs : List Revision) (l idx : Nat)
    (hleafl : (revs.getD l default).isLeaf = true) :
    depthCandsMid revs l l revs.length idx = depthCandsUpTo revs (l + 1) idx := by
  unfold depthCandsMid depthCandsUpTo
  apply List.filter_congr
  intro k hk
  rw [leavesUpTo_succ_leaf revs l hleafl, List.any_append]
  rw [List.mem_range] at hk
  simp [hk]

theorem depthValMid_full (revs : List Revision) (l idx : Nat)
    (hleafl : (revs.getD l default).isLeaf = true) :
    depthValMid revs l l revs.length idx = depthValUpTo revs (l + 1) idx := by
  unfold depthValMid depthValUpTo
  rw [depthCandsMid_full revs l idx hleafl]

theorem depthCandsMid_stop (revs : List Revision) (hn : revs.length ≤ 65535)
    (m l d idx : Nat) (hidx : idx < revs.length)
    (hstop : piter revs d l = kNoParent) :
    depthCandsMid revs m l d idx = depthCandsMid revs m l revs.length idx := by
  unfold depthCandsMid
  apply List.filter_congr
  intro k hk
  rw [List.mem_range] at hk
  rcases Nat.lt_or_ge k d with hkd | hkd
  · simp [hkd, hk]
  · have habs : piter revs k l = kNoParent := piter_absorb_forward revs d k l hkd hstop
    have hne : (piter revs k l == idx) = false := by
      rw [habs]
      unfold kNoParent
      simp
      omega
    simp only [hne, Bool.and_false, Bool.or_false]

theorem depthValMid_stop (revs : List Revision) (hn : revs.length ≤ 65535)
    (m l d idx : Nat) (hidx : idx < revs.length)
    (hstop : piter revs d l = kNoParent) :
    depthValMid revs m l d idx = depthValMid revs m l revs.length idx := by
  unfold depthValMid
  rw [depthCandsMid_stop revs hn m l d idx hidx hstop]

theorem depthCandsMid_skip (revs : List Revision) (m l d idx : Nat)
    (hne : piter revs d l ≠ idx) :
    depthCandsMid revs m l (d + 1) idx = depthCandsMid revs m l d idx := by
  unfold depthCandsMid
  apply List.filter_congr
  intro k _
  rcases Nat.lt_or_ge k d with hkd | hkd
  · simp [hkd, show k < d + 1 from by omega]
  · rcases Nat.lt_or_ge k (d + 1) with hkd1 | hkd1
    · have hkde : k = d := by omega
      subst hkde
      have hb : (piter revs k l == idx) = false := by simp [hne]
      simp [hb]
    · simp [show ¬(k < d + 1) from by omega, show ¬(k < d) from by omega]

theorem depthValMid_skip (revs : List Revision) (m l d idx : Nat)
    (hne : piter revs d l ≠ idx) :
    depthValMid revs m l (d + 1) idx = depthValMid revs m l d idx := by
  unfold depthValMid
  rw [depthCandsMid_skip revs m l d idx hne]

theorem depthCandsMid_mem (revs : List Revision) (m l d idx c : Nat) :
    c ∈ depthCandsMid revs m l d idx ↔
      c < revs.length ∧
        (((leavesUpTo revs m).any fun l2 => piter revs c l2 == idx) ||
          (decide (c < d) && (piter revs c l == idx))) = true := by
  unfold depthCandsMid
  rw [List.mem_filter, List.mem_range]

theorem depthValMid_update (revs : List Revision) (hn : revs.length ≤ 65535)
    (m l d x : Nat) (hx : piter revs d l = x) (hd : d < revs.length)
    (hcond : depthValMid revs m l d x = 65535 ∨ depthValMid revs m l d x < d) :
    depthValMid revs m l (d + 1) x = d := by
  have hdmem : d ∈ depthCandsMid revs m l (d + 1) x := by
    rw [depthCandsMid_mem]
    refine ⟨hd, ?_⟩
    simp [hx]
  have hne : (depthCandsMid revs m l (d + 1) x).isEmpty = false := by
    rw [List.isEmpty_eq_false_iff_exists_mem]
    exact ⟨d, hdmem⟩
  unfold depthValMid
  rw [hne, if_false_bool]
  have hge : d ≤ (depthCandsMid revs m l (d + 1) x).foldr max 0 :=
    le_foldr_max _ d hdmem
  have hvweak : ∀ c, c ∈ depthCandsMid revs m l d x → c < d := by
    intro c hc
    have hnonempty : (depthCandsMid revs m l d x).isEmpty = false := by
      rw [List.isEmpty_eq_false_iff_exists_mem]
      exact ⟨c, hc⟩
    have hcle : c ≤ (depthCandsMid revs m l d x).foldr max 0 :=
      le_foldr_max _ c hc
    rcases hcond with h65 | hlt
    · exfalso
      unfold depthValMid at h65
      rw [hnonempty, if_false_bool] at h65
      have hfm := foldr_max_mem (depthCandsMid revs m l d x) (by
        intro he
        rw [he] at hnonempty
        simp at hnonempty)
      have hb := ((depthCandsMid_mem revs m l d x _).mp hfm).1
      omega
    · unfold depthValMid at hlt
      rw [hnonempty, if_false_bool] at hlt
      omega
  have hle : (depthCandsMid revs m l (d + 1) x).foldr max 0 ≤ d := by
    have hfm := foldr_max_mem (depthCandsMid revs m l (d + 1) x) (by
      intro he
      rw [he] at hne
      simp at hne)
    obtain ⟨hcn, hpred⟩ := (depthCandsMid_mem revs m l (d + 1) x _).mp hfm
    rcases Bool.or_eq_true_iff.mp hpred with h3 | h3
    · have hcind : (depthCandsMid revs m l (d + 1) x).foldr max 0 ∈
          depthCandsMid revs m l d x :=
        (depthCandsMid_mem revs m l d x _).mpr ⟨hcn, by rw [h3]; rfl⟩
      exact Nat.le_of_lt (hvweak _ hcind)
    · rw [Bool.and_eq_true, decide_eq_true_eq] at h3
      omega
  omega

theorem depthValMid_break (revs : List Revision) (hn : revs.length ≤ 65535)
    (hp : ∀ r ∈ revs, r.parentIndex = kNoParent ∨ r.parentIndex < revs.length)
    (hterm : ∀ i, i < revs.length →
      ∃ k, k ≤ revs.length ∧ piter revs k i = kNoParent)
    (m l d : Nat) (hl : l < revs.length)
    (hstop : piter revs d l ≠ kNoParent)
    (hv65 : depthValMid revs m l d (piter revs d l) ≠ 65535)
    (hdv : d ≤ depthValMid revs m l d (piter revs d l)) :
    ∀ idx, idx < revs.length →
      depthValMid revs m l d idx = depthValMid revs m l revs.length idx := by
  have hnonempty : (depthCandsMid revs m l d (piter revs d l)).isEmpty = false := by
    cases hemp : (depthCandsMid revs m l d (piter revs d l)).isEmpty with
    | false => rfl
    | true =>
      exfalso
      apply hv65
      unfold depthValMid
      rw [hemp]
      rfl
  have hvmem := foldr_max_mem (depthCandsMid revs m l d (piter revs d l)) (by
    intro he
    rw [he] at hnonempty
    simp at hnonempty)
  obtain ⟨hvn, hvpred⟩ := (depthCandsMid_mem revs m l d (piter revs d l) _).mp hvmem
  have hdv2 : d ≤ (depthCandsMid revs m l d (piter revs d l)).foldr max 0 := by
    unfold depthValMid at hdv
    rw [hnonempty, if_false_bool] at hdv
    exact hdv
  intro idx hidx
  unfold depthValMid
  apply maxVal_congr
  · intro c hc
    obtain ⟨hcn, hcpred⟩ := (depthCandsMid_mem revs m l d idx c).mp hc
    rw [depthCandsMid_mem]
    refine ⟨hcn, ?_⟩
    rcases Bool.or_eq_true_iff.mp hcpred with h3 | h3
    · rw [h3]; rfl
    · rw [Bool.and_eq_true, decide_eq_true_eq] at h3
      apply Bool.or_eq_true_iff.mpr
      right
      rw [Bool.and_eq_true, decide_eq_true_eq]
      exact ⟨hcn, h3.2⟩
  · intro k hk
    obtain ⟨hkn, hkpred⟩ := (depthCandsMid_mem revs m l revs.length idx k).mp hk
    rcases Bool.or_eq_true_iff.mp hkpred with h3 | h3
    · refine ⟨k, ?_, Nat.le_refl k⟩
      rw [depthCandsMid_mem]
      exact ⟨hkn, by rw [h3]; rfl⟩
    · rw [Bool.and_eq_true, decide_eq_true_eq] at h3
      obtain ⟨_, hkeq⟩ := h3
      rw [beq_iff_eq] at hkeq
      rcases Nat.lt_or_ge k d with hkd | hkd
      · refine ⟨k, ?_, Nat.le_refl k⟩
        rw [depthCandsMid_mem]
        refine ⟨hkn, ?_⟩
        apply Bool.or_eq_true_iff.mpr
        right
        rw [Bool.and_eq_true, decide_eq_true_eq]
        exact ⟨hkd, by rw [hkeq]; exact beq_self_eq_true idx⟩
      · rcases Bool.or_eq_true_iff.mp hvpred with hvleaf | hvl
        · rw [List.any_eq_true] at hvleaf
          obtain ⟨l2, hl2mem, hl2eq⟩ := hvleaf
          rw [beq_iff_eq] at hl2eq
          obtain ⟨hl2n, _⟩ := leavesUpTo_mem revs m l2 hl2mem
          have hc1 : piter revs
              ((depthCandsMid revs m l d (piter revs d l)).foldr max 0 + (k - d)) l2 =
              idx := by
            rw [piter_add, hl2eq, ← piter_add,
              show d + (k - d) = k from by omega, hkeq]
          have hcn2 : (depthCandsMid revs m l d (piter revs d l)).foldr max 0 +
              (k - d) < revs.length := by
            apply piter_dist_lt revs hn hp hterm l2 _ hl2n
            rw [hc1]
            unfold kNoParent
            omega
          refine ⟨(depthCandsMid revs m l d (piter revs d l)).foldr max 0 + (k - d),
            ?_, by omega⟩
          rw [depthCandsMid_mem]
          refine ⟨hcn2, ?_⟩
          apply Bool.or_eq_true_iff.mpr
          left
          rw [List.any_eq_true]
          exact ⟨l2, hl2mem, by rw [hc1]; exact beq_self_eq_true idx⟩
        · rw [Bool.and_eq_true, decide_eq_true_eq] at hvl
          omega

theorem if_true_prop (a b : Prop) : (if (true : Bool) = true then a else b) = a := rfl

theorem walkDepths_correct (revs : List Revision) (hn : revs.length ≤ 65535)
    (hp : ∀ r ∈ revs, r.parentIndex = kNoParent ∨ r.parentIndex < revs.length)
    (hterm : ∀ i, i < revs.length →
      ∃ k, k ≤ revs.length ∧ piter revs k i = kNoParent)
    (m l : Nat) (hl : l < revs.length) :
    ∀ fuel d D K,
      piter revs K l = kNoParent →
      (∀ k2, d ≤ k2 → k2 < K → piter revs k2 l ≠ kNoParent) →
      d ≤ K → K + 1 ≤ d + fuel →
      D.length = revs.length →
      (∀ idx, idx < revs.length → D.getD idx 0 = depthValMid revs m l d idx) →
      (walkDepths revs true fuel (piter revs d l) d D).length = revs.length ∧
      (∀ idx, idx < revs.length →
        (walkDepths revs true fuel (piter revs d l) d D).getD idx 0 =
          depthValMid revs m l revs.length idx) := by
  intro fuel
  induction fuel with
  | zero =>
    intro d D K hK hlive hdK hfuel hDlen hInv
    omega
  | succ fuel ih =>
    intro d D K hK hlive hdK hfuel hDlen hInv
    by_cases hstop : piter revs d l = kNoParent
    · rw [walkDepths, if_pos hstop]
      refine ⟨hDlen, fun idx hidx => ?_⟩
      rw [hInv idx hidx]
      exact depthValMid_stop revs hn m l d idx hidx hstop
    · have hxl : piter revs d l < revs.length := by
        rcases piter_range revs hp d l hl with h | h
        · exact h
        · exact absurd h hstop
      have hdn : d < revs.length := piter_dist_lt revs hn hp hterm l d hl hstop
      have hdK2 : d < K := by
        rcases Nat.lt_or_ge d K with h | h
        · exact h
        · exfalso
          have hde : d = K := by omega
          rw [hde] at hstop
          exact hstop hK
      rw [walkDepths, if_neg hstop]
      dsimp only
      simp only [eq_self_iff_true, if_true]
      by_cases hcond : D.getD (piter revs d l) 0 = 65535 ∨
          D.getD (piter revs d l) 0 < d
      · rw [if_pos hcond]
        have hnext : (revs.getD (piter revs d l) default).parentIndex =
            piter revs (d + 1) l := by
          rw [piter_succ_right]
          unfold pstep
          rw [if_neg hstop]
        rw [hnext]
        have hcond2 : depthValMid revs m l d (piter revs d l) = 65535 ∨
            depthValMid revs m l d (piter revs d l) < d := by
          rw [← hInv _ hxl]
          exact hcond
        apply ih (d + 1) (D.set (piter revs d l) d) K hK
          (fun k2 h1 h2 => hlive k2 (by omega) h2) (by omega) (by omega)
          (by rw [List.length_set]; exact hDlen)
        intro idx hidx
        by_cases hxi : piter revs d l = idx
        · rw [← hxi]
          rw [List.getD_eq_getElem _ _ (by rw [List.length_set]; omega),
            List.getElem_set, if_pos rfl]
          exact (depthValMid_update revs hn m l d (piter revs d l) rfl hdn hcond2).symm
        · rw [List.getD_eq_getElem _ _ (by rw [List.length_set]; omega),
            List.getElem_set, if_neg hxi,
            ← List.getD_eq_getElem D 0 (by omega), hInv idx hidx]
          exact (depthValMid_skip revs m l d idx hxi).symm
      · rw [if_neg hcond]
        push_neg at hcond
        obtain ⟨h65, hge⟩ := hcond
        have h65x : depthValMid revs m l d (piter revs d l) ≠ 65535 := by
          rw [← hInv _ hxl]
          exact h65
        have hgex : d ≤ depthValMid revs m l d (piter revs d l) := by
          rw [← hInv _ hxl]
          omega
        refine ⟨hDlen, fun idx hidx => ?_⟩
        rw [hInv idx hidx]
        exact depthValMid_break revs hn hp hterm m l d hl hstop h65x hgex idx hidx

theorem leavesUpTo_stable (revs : List Revision) (i : Nat)
    (hnl : ∀ j2, i ≤ j2 → j2 < revs.length → (revs.getD j2 default).isLeaf = false) :
    ∀ j, i ≤ j → leavesUpTo revs j = leavesUpTo revs i := by
  intro j
  induction j with
  | zero =>
    intro h
    rw [Nat.le_zero.mp h]
  | succ j ih =>
    intro h
    rcases Nat.lt_or_ge i (j + 1) with h2 | h2
    · have hij : i ≤ j := by omega
      rw [← ih hij]
      apply leavesUpTo_succ_nonleaf
      rcases Nat.lt_or_ge j revs.length with h3 | h3
      · exact hnl j hij h3
      · rw [List.getD_eq_default _ _ (by omega)]
        rfl
    · have hieq : i = j + 1 := by omega
      rw [hieq]

theorem computeDepthsFrom_correct (revs : List Revision) (hn : revs.length ≤ 65535)
    (hp : ∀ r ∈ revs, r.parentIndex = kNoParent ∨ r.parentIndex < revs.length)
    (hterm : ∀ i, i < revs.length →
      ∃ k, k ≤ revs.length ∧ piter revs k i = kNoParent)
    (sorted : Bool) (hso : sorted = true → leavesFirst revs) :
    ∀ fuel i D,
      revs.length ≤ i + fuel →
      D.length = revs.length →
      (∀ idx, idx < revs.length → D.getD idx 0 = depthValUpTo revs i idx) →
      (computeDepthsFrom revs sorted true fuel i D).length = revs.length ∧
      (∀ idx, idx < revs.length →
        (computeDepthsFrom revs sorted true fuel i D).getD idx 0 =
          depthValUpTo revs revs.length idx) := by
  intro fuel
  induction fuel with
  | zero =>
    intro i D hfuel hDlen hInv
    refine ⟨hDlen, fun idx hidx => ?_⟩
    show D.getD idx 0 = _
    rw [hInv idx hidx]
    unfold depthValUpTo depthCandsUpTo
    rw [leavesUpTo_ge revs i (by omega)]
  | succ fuel ih =>
    intro i D hfuel hDlen hInv
    rw [computeDepthsFrom]
    by_cases hin : i < revs.length
    · rw [if_pos hin]
      by_cases hleafi : (revs.getD i default).isLeaf = true
      · rw [if_pos hleafi]
        obtain ⟨k0, hk0n, hk0⟩ := hterm i hin
        have hPex : ∃ k, piter revs k i = kNoParent := ⟨k0, hk0⟩
        have hKdef : piter revs (Nat.find hPex) i = kNoParent := Nat.find_spec hPex
        have hKn : Nat.find hPex ≤ revs.length :=
          Nat.le_trans (Nat.find_min' hPex hk0) hk0n
        have hwalk := walkDepths_correct revs hn hp hterm i i hin
          (revs.length + 1) 0 D (Nat.find hPex) hKdef
          (fun k2 _ h2 => Nat.find_min hPex h2) (Nat.zero_le _) (by omega) hDlen
          (fun idx hidx => by
            rw [hInv idx hidx]
            exact (depthValMid_zero revs i i idx).symm)
        apply ih (i + 1) (walkDepths revs true (revs.length + 1) i 0 D) (by omega)
        · exact hwalk.1
        · intro idx hidx
          have h2 := hwalk.2 idx hidx
          exact h2.trans (depthValMid_full revs i idx hleafi)
      · rw [if_neg hleafi]
        have hleafF : (revs.getD i default).isLeaf = false := by
          cases hb : (revs.getD i default).isLeaf with
          | false => rfl
          | true => exact absurd hb hleafi
        by_cases hsorted : sorted = true
        · subst hsorted
          rw [if_pos rfl]
          refine ⟨hDlen, fun idx hidx => ?_⟩
          rw [hInv idx hidx]
          have hlf := hso rfl
          unfold depthValUpTo depthCandsUpTo
          rw [show leavesUpTo revs i = leavesUpTo revs revs.length from ?_]
          have hnl : ∀ j2, i ≤ j2 → j2 < revs.length →
              (revs.getD j2 default).isLeaf = false := by
            intro j2 hij2 hj2n
            cases hb : (revs.getD j2 default).isLeaf with
            | false => rfl
            | true =>
              exfalso
              rcases Nat.lt_or_ge i j2 with hlt | hge
              · have := hlf j2 hj2n i hlt hb
                rw [this] at hleafF
                exact absurd hleafF (by decide)
              · have hieq : j2 = i := by omega
                rw [hieq] at hb
                rw [hb] at hleafF
                exact absurd hleafF (by decide)
          exact (leavesUpTo_stable revs i hnl revs.length (by omega)).symm
        · have hsf : sorted = false := by
            cases sorted with
            | false => rfl
            | true => exact absurd rfl hsorted
          subst hsf
          rw [if_neg (by simp)]
          apply ih (i + 1) D (by omega) hDlen
          intro idx hidx
          rw [hInv idx hidx]
          unfold depthValUpTo depthCandsUpTo
          rw [leavesUpTo_succ_nonleaf revs i hleafF]
    · rw [if_neg hin]
      refine ⟨hDlen, fun idx hidx => ?_⟩
      rw [hInv idx hidx]
      unfold depthValUpTo depthCandsUpTo
      rw [leavesUpTo_ge revs i (by omega)]

theorem computeDepths_correct (t : RevTree) (hn : t.revs.length ≤ 65535)
    (hp : ∀ r ∈ t.revs, r.parentIndex = kNoParent ∨ r.parentIndex < t.revs.length)
    (hterm : ∀ i, i < t.revs.length →
      ∃ k, k ≤ t.revs.length ∧ piter t.revs k i = kNoParent)
    (hso : t.sorted = true → leavesFirst t.revs) :
    (t.computeDepths true).length = t.revs.length ∧
    (∀ idx, idx < t.revs.length →
      (t.computeDepths true).getD idx 0 =
        depthValUpTo t.revs t.revs.length idx) := by
  unfold RevTree.computeDepths
  apply computeDepthsFrom_correct t.revs hn hp hterm t.sorted hso t.revs.length 0
    (List.replicate t.revs.length 65535) (by omega) (by simp)
  intro idx hidx
  rw [List.getD_eq_getElem _ _ (by simpa using hidx), List.getElem_replicate]
  unfold depthValUpTo depthCandsUpTo
  rw [leavesUpTo_zero]
  simp

theorem depthValUpTo_eq_depthSpec (revs : List Revision) (idx : Nat)
    (hre : ∃ l, l < revs.length ∧ (revs.getD l default).isLeaf = true ∧
      ∃ k, k < revs.length ∧ piter revs k l = idx) :
    depthValUpTo revs revs.length idx = depthSpec revs idx := by
  obtain ⟨l, hln, hleafl, k, hkn, hkeq⟩ := hre
  have hkmem : k ∈ depthCandsUpTo revs revs.length idx := by
    unfold depthCandsUpTo
    rw [List.mem_filter, List.mem_range]
    refine ⟨hkn, ?_⟩
    rw [List.any_eq_true]
    refine ⟨l, ?_, by rw [hkeq]; exact beq_self_eq_true idx⟩
    unfold leavesUpTo
    rw [List.mem_filter, List.mem_range]
    exact ⟨hln, hleafl⟩
  have hne : (depthCandsUpTo revs revs.length idx).isEmpty = false := by
    rw [List.isEmpty_eq_false_iff_exists_mem]
    exact ⟨k, hkmem⟩
  unfold depthValUpTo depthSpec depthCands depthCandsUpTo
  unfold depthCandsUpTo at hne
  rw [hne, if_false_bool]

theorem depthSpec_lt (revs : List Revision) (idx : Nat) (h0 : 0 < revs.length) :
    depthSpec revs idx < revs.length := by
  unfold depthSpec
  by_cases he : depthCands revs idx = []
  · rw [he]
    simpa using h0
  · have hm := foldr_max_mem _ he
    unfold depthCands at hm
    rw [List.mem_filter, List.mem_range] at hm
    exact hm.1

theorem depthSpec_leaf (revs : List Revision) (hn : revs.length ≤ 65535) (i : Nat)
    (hi : i < revs.length)
    (hchildless : ∀ j, j < revs.length → (revs.getD j default).parentIndex ≠ i) :
    depthSpec revs i = 0 := by
  have hall : ∀ k ∈ depthCands revs i, k = 0 := by
    intro k hk
    unfold depthCands at hk
    rw [List.mem_filter, List.mem_range] at hk
    obtain ⟨hkn, hpred⟩ := hk
    rw [List.any_eq_true] at hpred
    obtain ⟨l, hlmem, hleq⟩ := hpred
    rw [beq_iff_eq] at hleq
    by_contra hk0
    have hstep : piter revs k l = pstep revs (piter revs (k - 1) l) := by
      rw [← piter_succ_right, show k - 1 + 1 = k from by omega]
    rw [hstep] at hleq
    unfold pstep at hleq
    by_cases hy : piter revs (k - 1) l = kNoParent
    · rw [if_pos hy] at hleq
      unfold kNoParent at hleq
      omega
    · rw [if_neg hy] at hleq
      by_cases hyn : piter revs (k - 1) l < revs.length
      · exact hchildless _ hyn hleq
      · rw [List.getD_eq_default _ _ (by omega)] at hleq
        have hdef : (default : Revision).parentIndex = 65535 := rfl
        rw [hdef] at hleq
        omega
  unfold depthSpec
  by_cases he : depthCands revs i = []
  · rw [he]
    rfl
  · have hm := foldr_max_mem _ he
    exact hall _ hm

theorem markDeep_length (depths : List Nat) (maxDepth : Nat) :
    ∀ (revs : List Revision) (i : Nat),
      (markDeep depths maxDepth i revs).length = revs.length := by
  intro revs
  induction revs with
  | nil => intro i; rfl
  | cons r rs ih =>
    intro i
    show (_ :: markDeep depths maxDepth (i + 1) rs).length = _
    rw [List.length_cons, List.length_cons, ih]

theorem markDeep_getD (depths : List Nat) (maxDepth : Nat) :
    ∀ (revs : List Revision) (i j : Nat), j < revs.length →
      (markDeep depths maxDepth i revs).getD j default =
        (if maxDepth < depths.getD (i + j) 0 then
          { revs.getD j default with revID := [] }
         else revs.getD j default) := by
  intro revs
  induction revs with
  | nil =>
    intro i j hj
    simp at hj
  | cons r rs ih =>
    intro i j hj
    cases j with
    | zero =>
      show ((if maxDepth < depths.getD i 0 then { r with revID := [] } else r) ::
        markDeep depths maxDepth (i + 1) rs).getD 0 default = _
      rw [List.getD_cons_zero]
      rfl
    | succ j =>
      show ((if maxDepth < depths.getD i 0 then { r with revID := [] } else r) ::
        markDeep depths maxDepth (i + 1) rs).getD (j + 1) default = _
      rw [List.getD_cons_succ]
      rw [ih (i + 1) j (by simp at hj; omega)]
      rw [show i + 1 + j = i + (j + 1) from by omega]
      rfl

theorem markDeep_filter (depths : List Nat) (maxDepth : Nat) :
    ∀ (revs : List Revision) (i : Nat),
      (∀ r ∈ revs, r.revID ≠ []) →
      (markDeep depths maxDepth i revs).filter (fun r => r.revID.length > 0) =
        ((List.range revs.length).filter
          (fun j => decide (depths.getD (i + j) 0 ≤ maxDepth))).map
          (fun j => revs.getD j default) := by
  intro revs
  induction revs with
  | nil => intro i _; rfl
  | cons r rs ih =>
    intro i hid
    show List.filter _ ((if maxDepth < depths.getD i 0 then { r with revID := [] }
      else r) :: markDeep depths maxDepth (i + 1) rs) = _
    simp only [List.length_cons]
    rw [List.range_succ_eq_map, List.filter_cons, List.filter_cons]
    by_cases hm : maxDepth < depths.getD i 0
    · rw [if_pos hm]
      rw [show (decide ((({ r with revID := [] } : Revision)).revID.length > 0)) =
        false from rfl]
      rw [show (decide (depths.getD (i + 0) 0 ≤ maxDepth)) = false from by
        simp only [Nat.add_zero]
        rw [decide_eq_false_iff_not]
        omega]
      simp only [Bool.false_eq_true, if_false]
      rw [ih (i + 1) (fun x hx => hid x (List.mem_cons_of_mem r hx))]
      rw [List.filter_map, List.map_map]
      have hfc : List.filter
          ((fun j => decide (depths.getD (i + j) 0 ≤ maxDepth)) ∘ Nat.succ)
          (List.range rs.length) =
          List.filter (fun j => decide (depths.getD (i + 1 + j) 0 ≤ maxDepth))
          (List.range rs.length) := by
        apply List.filter_congr
        intro j _
        simp only [Function.comp]
        rw [show i + Nat.succ j = i + 1 + j from by omega]
      rw [hfc]
      rfl
    · rw [if_neg hm]
      have hr : r.revID ≠ [] := hid r (List.mem_cons_self r rs)
      rw [show (decide (r.revID.length > 0)) = true from by
        rw [decide_eq_true_eq]
        cases hrr : r.revID with
        | nil => exact absurd hrr hr
        | cons a as => simp]
      rw [show (decide (depths.getD (i + 0) 0 ≤ maxDepth)) = true from by
        simp only [Nat.add_zero]
        rw [decide_eq_true_eq]
        omega]
      simp only [if_true]
      rw [ih (i + 1) (fun x hx => hid x (List.mem_cons_of_mem r hx))]
      rw [List.filter_map, List.map_cons, List.map_map]
      have hfc : List.filter
          ((fun j => decide (depths.getD (i + j) 0 ≤ maxDepth)) ∘ Nat.succ)
          (List.range rs.length) =
          List.filter (fun j => decide (depths.getD (i + 1 + j) 0 ≤ maxDepth))
          (List.range rs.length) := by
        apply List.filter_congr
        intro j _
        simp only [Function.comp]
        rw [show i + Nat.succ j = i + 1 + j from by omega]
      rw [hfc]
      show _ :: _ = (r :: rs).getD 0 default :: _
      rw [List.getD_cons_zero]
      rfl

theorem map_getD_range : ∀ l : List Revision,
    (List.range l.length).map (fun j => l.getD j default) = l := by
  intro l
  apply List.ext_getElem
  · simp
  · intro j h1 h2
    rw [List.getElem_map, List.getElem_range,
      List.getD_eq_getElem _ _ (by simpa using h2)]

theorem filterMap_filter_of_none {α : Type} (f : Nat → Option α) :
    ∀ (l : List Nat) (p : Nat → Bool),
      (∀ j ∈ l, p j = false → f j = none) →
      (l.filter p).filterMap f = l.filterMap f := by
  intro l
  induction l with
  | nil => intro p _; rfl
  | cons a rest ih =>
    intro p hnone
    rw [List.filter_cons]
    cases hpa : p a with
    | true =>
      simp only [if_true]
      rw [List.filterMap_cons, List.filterMap_cons]
      cases hfa : f a with
      | none => exact ih p (fun j hj => hnone j (List.mem_cons_of_mem a hj))
      | some b =>
        rw [ih p (fun j hj => hnone j (List.mem_cons_of_mem a hj))]
    | false =>
      simp only [Bool.false_eq_true, if_false]
      rw [List.filterMap_cons, hnone a (List.mem_cons_self a rest) hpa]
      exact ih p (fun j hj => hnone j (List.mem_cons_of_mem a hj))

/-- C6 (amended, for `1 ≤ maxDepth < 65535`): on a well-formed tree `prune`
    removes exactly the revisions whose longest-path depth from a leaf exceeds
    `maxDepth` and returns their number; the survivors (whose depths are all at
    most `maxDepth`) keep their non-index fields in order, and the set of leaves
    is unchanged. -/
theorem c6_prune (t : RevTree) (maxDepth : Nat)
    (hmd : 1 ≤ maxDepth) (hmd2 : maxDepth < 65535)
    (hn : t.revs.length ≤ 32768)
    (hp : ∀ r ∈ t.revs, r.parentIndex = kNoParent ∨ r.parentIndex < t.revs.length)
    (hterm : ∀ i, i < t.revs.length →
      ∃ k, k ≤ t.revs.length ∧ piter t.revs k i = kNoParent)
    (hid : ∀ r ∈ t.revs, r.revID ≠ [])
    (hleaf : ∀ i, i < t.revs.length → (t.revs.getD i default).isLeaf = true →
      ∀ j, j < t.revs.length → (t.revs.getD j default).parentIndex ≠ i)
    (hreach : ∀ i, i < t.revs.length → ∃ l, l < t.revs.length ∧
      (t.revs.getD l default).isLeaf = true ∧
      ∃ k, k < t.revs.length ∧ piter t.revs k l = i)
    (hso : t.sorted = true → leavesFirst t.revs) :
    (t.prune maxDepth).1 =
      ((List.range t.revs.length).filter
        (fun i => decide (maxDepth < depthSpec t.revs i))).length ∧
    (t.prune maxDepth).2.revs.map coreFields =
      ((List.range t.revs.length).filter
        (fun i => decide (depthSpec t.revs i ≤ maxDepth))).map
        (fun i => coreFields (t.revs.getD i default)) ∧
    (t.prune maxDepth).2.revs.filterMap leafID = t.revs.filterMap leafID := by
  have hn65 : t.revs.length ≤ 65535 := by omega
  obtain ⟨hdlen, hdval⟩ := computeDepths_correct t hn65 hp hterm hso
  have hdspec : ∀ idx, idx < t.revs.length →
      (t.computeDepths true).getD idx 0 = depthSpec t.revs idx := by
    intro idx hidx
    rw [hdval idx hidx]
    exact depthValUpTo_eq_depthSpec t.revs idx (hreach idx hidx)
  have hfc : (List.range t.revs.length).filter
      (fun i => decide (maxDepth < (t.computeDepths true).getD i 0)) =
      (List.range t.revs.length).filter
      (fun i => decide (maxDepth < depthSpec t.revs i)) := by
    apply List.filter_congr
    intro x hx
    rw [List.mem_range] at hx
    rw [hdspec x hx]
  have hfs : (List.range t.revs.length).filter
      (fun j => decide ((t.computeDepths true).getD (0 + j) 0 ≤ maxDepth)) =
      (List.range t.revs.length).filter
      (fun i => decide (depthSpec t.revs i ≤ maxDepth)) := by
    apply List.filter_congr
    intro x hx
    rw [List.mem_range] at hx
    rw [Nat.zero_add, hdspec x hx]
  have hnone : ∀ j ∈ List.range t.revs.length,
      (fun i => decide (depthSpec t.revs i ≤ maxDepth)) j = false →
      (leafID ∘ fun j2 => t.revs.getD j2 default) j = none := by
    intro j hj hfalse
    rw [List.mem_range] at hj
    simp only [decide_eq_false_iff_not, not_le] at hfalse
    simp only [Function.comp]
    unfold leafID
    cases hlj : (t.revs.getD j default).isLeaf with
    | false => rfl
    | true =>
      exfalso
      have h0 : depthSpec t.revs j = 0 :=
        depthSpec_leaf t.revs hn65 j hj (fun j2 hj2 => hleaf j hj hlj j2 hj2)
      omega
  unfold RevTree.prune
  by_cases hearly : maxDepth = 0 ∨ t.revs.length ≤ maxDepth
  · rw [if_pos hearly]
    have hnle : t.revs.length ≤ maxDepth := by
      rcases hearly with h | h
      · omega
      · exact h
    have hallok : ∀ i, i < t.revs.length → depthSpec t.revs i ≤ maxDepth := by
      intro i hi
      have := depthSpec_lt t.revs i (by omega)
      omega
    have hf1 : (List.range t.revs.length).filter
        (fun i => decide (maxDepth < depthSpec t.revs i)) = [] := by
      rw [List.filter_eq_nil_iff]
      intro a ha
      rw [List.mem_range] at ha
      simp only [decide_eq_true_eq, not_lt]
      exact hallok a ha
    have hf2 : (List.range t.revs.length).filter
        (fun i => decide (depthSpec t.revs i ≤ maxDepth)) =
        List.range t.revs.length := by
      rw [List.filter_eq_self]
      intro a ha
      rw [List.mem_range] at ha
      rw [decide_eq_true_eq]
      exact hallok a ha
    refine ⟨?_, ?_, rfl⟩
    · rw [hf1]
      rfl
    · rw [hf2]
      show t.revs.map coreFields = _
      rw [show (fun i => coreFields (t.revs.getD i default)) =
        (coreFields ∘ fun j => t.revs.getD j default) from rfl,
        ← List.map_map, map_getD_range]
  · rw [if_neg hearly]
    push_neg at hearly
    obtain ⟨hmd0, hlt⟩ := hearly
    dsimp only
    by_cases hnum : 0 < ((List.range t.revs.length).filter
        (fun i => decide (maxDepth < (t.computeDepths true).getD i 0))).length
    · rw [if_pos hnum]
      refine ⟨?_, ?_, ?_⟩
      · show ((List.range t.revs.length).filter
            (fun i => decide (maxDepth < (t.computeDepths true).getD i 0))).length = _
        rw [hfc]
      · show ((RevTree.compact { t with
            revs := markDeep (t.computeDepths true) maxDepth 0 t.revs }).revs).map
            coreFields = _
        unfold RevTree.compact
        dsimp only
        rw [List.map_map,
          markDeep_filter (t.computeDepths true) maxDepth t.revs 0 hid,
          List.map_map, hfs]
        apply List.map_congr_left
        intro j hj
        rfl
      · show (RevTree.compact { t with
            revs := markDeep (t.computeDepths true) maxDepth 0 t.revs }).revs.filterMap
            leafID = _
        unfold RevTree.compact
        dsimp only
        rw [List.filterMap_map]
        show List.filterMap leafID
          ((markDeep (t.computeDepths true) maxDepth 0 t.revs).filter
            (fun r => r.revID.length > 0)) = _
        rw [markDeep_filter (t.computeDepths true) maxDepth t.revs 0 hid,
          List.filterMap_map, hfs,
          filterMap_filter_of_none (leafID ∘ fun j2 => t.revs.getD j2 default)
            (List.range t.revs.length)
            (fun i => decide (depthSpec t.revs i ≤ maxDepth)) hnone,
          ← List.filterMap_map (fun j => t.revs.getD j default) leafID,
          map_getD_range]
    · rw [if_neg hnum]
      have hzero : ((List.range t.revs.length).filter
          (fun i => decide (maxDepth < (t.computeDepths true).getD i 0))).length =
          0 := by omega
      have hallok2 : ∀ j, j < t.revs.length →
          (t.computeDepths true).getD j 0 ≤ maxDepth := by
        intro j hj
        have hemp : (List.range t.revs.length).filter
            (fun i => decide (maxDepth < (t.computeDepths true).getD i 0)) = [] :=
          List.length_eq_zero.mp hzero
        rw [List.filter_eq_nil_iff] at hemp
        have h2 := hemp j (by rw [List.mem_range]; exact hj)
        simp only [decide_eq_true_eq, not_lt] at h2
        exact h2
      have hM : markDeep (t.computeDepths true) maxDepth 0 t.revs = t.revs := by
        apply List.ext_getElem
        · rw [markDeep_length]
        · intro j h1 h2
          have hj : j < t.revs.length := h2
          have hmg := markDeep_getD (t.computeDepths true) maxDepth t.revs 0 j hj
          rw [Nat.zero_add] at hmg
          rw [if_neg (by have := hallok2 j hj; omega)] at hmg
          rw [← List.getD_eq_getElem _ default h1, ← List.getD_eq_getElem _ default h2]
          exact hmg
      have hf2b : (List.range t.revs.length).filter
          (fun i => decide (depthSpec t.revs i ≤ maxDepth)) =
          List.range t.revs.length := by
        rw [List.filter_eq_self]
        intro a ha
        rw [List.mem_range] at ha
        rw [decide_eq_true_eq, ← hdspec a ha]
        exact hallok2 a ha
      refine ⟨?_, ?_, ?_⟩
      · show ((List.range t.revs.length).filter
            (fun i => decide (maxDepth < (t.computeDepths true).getD i 0))).length = _
        rw [hfc]
      · show (markDeep (t.computeDepths true) maxDepth 0 t.revs).map coreFields = _
        rw [hM, hf2b]
        rw [show (fun i => coreFields (t.revs.getD i default)) =
          (coreFields ∘ fun j => t.revs.getD j default) from rfl,
          ← List.map_map, map_getD_range]
      · show (markDeep (t.computeDepths true) maxDepth 0 t.revs).filterMap leafID = _
        rw [hM]

/-- C6 (counterexample): the claim fails at `maxDepth = 0`.  In the two-revision
    chain the root (index 1) has longest-path depth 1 > 0, yet `prune(0)` takes
    the `maxDepth == 0` early return, removes nothing and returns 0. -/
theorem c6_counterexample :
    depthSpec chain2Tree.revs 1 = 1 ∧
    chain2Tree.prune 0 = (0, chain2Tree) := by decide

/-- Witness for `c6_prune` at `branchTree` with `maxDepth = 1`: the root (depth
    2) is pruned, the three shallower revisions survive and both leaves stay. -/
theorem c6_prune_witness :
    (branchTree.prune 1).1 =
      ((List.range branchTree.revs.length).filter
        (fun i => decide (1 < depthSpec branchTree.revs i))).length ∧
    (branchTree.prune 1).2.revs.map coreFields =
      ((List.range branchTree.revs.length).filter
        (fun i => decide (depthSpec branchTree.revs i ≤ 1))).map
        (fun i => coreFields (branchTree.revs.getD i default)) ∧
    (branchTree.prune 1).2.revs.filterMap leafID =
      branchTree.revs.filterMap leafID :=
  c6_prune branchTree 1 (by decide) (by decide) (by decide) (by decide)
    (by decide) (by decide) (by decide) (by decide) (by decide)
